import Mathlib

/-!
Chained hash table (`hashtable.c`).

A shallow embedding of the table operations of `src/hashtable/hashtable.c`.

* A bucket chain (`hashtable_Cell *` linked through `next`) is a `List` of cells; the
  `next` link of a cell is the tail of the list, `NULL` is `[]`.
* `context->table` is the list of the bucket chains, `table[j]` is `table.getD j []`
  and `table[j] = c` is `table.set j c`.  Indexing outside `[0, tableSize)` is undefined
  in C; the statements below carry the in-range hypothesis wherever they depend on it.
* `context->currentCell` points into a chain; it is represented by the part of the chain
  that starts at the cell it points to (`[]` for `NULL`).  The representation is exact as
  long as no cell of that part is updated or deleted while the cursor is parked on it; the
  statements about what `hashtable_next` returns are about walks with no mutation in
  between, and the statements about runs that mix `hashtable_next` with mutations read the
  chains only.
* The callbacks `destroyData` and `destroyKey` are not interpreted by the table; every
  invocation is recorded, in order, in the field `calls`.
* The mutex is taken and released around every public body; the embedding is sequential,
  so a public operation is its body.  `malloc` is assumed to succeed.
-/

namespace Hashtable

/-- Return value of `hashtable_insert` when the key was not in the table. -/
def hashtable_NOT_EXIST : Nat := 0

/-- Return value of `hashtable_insert` when the key was already in the table. -/
def hashtable_EXIST : Nat := 1

/-- The contents of a `struct __hashtable_cell`; its `next` link is the rest of the chain. -/
structure hashtable_Cell (K V : Type) where
  key : K
  data : V
deriving DecidableEq

/-- One invocation of a destroy callback of the context. -/
inductive Callback (K V : Type) where
  | destroyData (data : V)
  | destroyKey (key : K)
deriving DecidableEq

/-- The fields of `struct __hashtable_context`. -/
structure hashtable_Context (K V : Type) where
  table : List (List (hashtable_Cell K V))
  i : Nat
  currentCell : List (hashtable_Cell K V)
  tableSize : Nat
  hash : K → Nat
  compareKey : K → K → Bool
  calls : List (Callback K V)

section Operations

variable {K V : Type}

/-- The `while` loop of `hashtable_find_private`: the first cell of the chain whose key
compares equal to `key` (stored key first, probe second). -/
def find_loop (compareKey : K → K → Bool) (key : K) :
    List (hashtable_Cell K V) → Option (hashtable_Cell K V)
  | [] => none
  | cell :: next => if compareKey cell.key key then some cell else find_loop compareKey key next

/-- Embedding of `hashtable_find_private`: scan the chain of bucket `hash(key)`. -/
def hashtable_find_private (context : hashtable_Context K V) (key : K) :
    Option (hashtable_Cell K V) :=
  find_loop context.compareKey key (context.table.getD (context.hash key) [])

/-- The `for` loop of `hashtable_delete_private`: unlink the first cell whose key compares
equal to `key`; the result is that cell and the relinked chain, `none` when no cell matches. -/
def delete_loop (compareKey : K → K → Bool) (key : K) :
    List (hashtable_Cell K V) → Option (hashtable_Cell K V × List (hashtable_Cell K V))
  | [] => none
  | cell :: next =>
    if compareKey cell.key key then some (cell, next)
    else
      match delete_loop compareKey key next with
      | none => none
      | some (found, rest) => some (found, cell :: rest)

/-- Embedding of `hashtable_delete_private`. -/
def hashtable_delete_private (context : hashtable_Context K V) (key : K) :
    hashtable_Context K V :=
  match context.table.getD (context.hash key) [] with
  | [] => context
  | cell :: next =>
    match delete_loop context.compareKey key (cell :: next) with
    | none => context
    | some (found, chain) =>
      { context with
        table := context.table.set (context.hash key) chain
        calls := context.calls ++ [Callback.destroyData found.data, Callback.destroyKey found.key] }

/-- Embedding of `hashtable_initialize`: `tableSize` empty buckets, cursor at
`(i = 0, currentCell = NULL)`.  The two destroy callbacks it stores are not interpreted;
their invocations are recorded in `calls`, which starts empty. -/
def hashtable_initialize (V : Type) (tableSize : Nat) (hash : K → Nat)
    (compareKey : K → K → Bool) : hashtable_Context K V :=
  { table := List.replicate tableSize []
    i := 0
    currentCell := []
    tableSize := tableSize
    hash := hash
    compareKey := compareKey
    calls := [] }

/-- Embedding of `hashtable_find`. -/
def hashtable_find (context : hashtable_Context K V) (key : K) : Option (hashtable_Cell K V) :=
  hashtable_find_private context key

/-- Embedding of `hashtable_insert`: the return code and the context afterwards. -/
def hashtable_insert (context : hashtable_Context K V) (key : K) (data : V) :
    Nat × hashtable_Context K V :=
  match hashtable_find_private context key with
  | some _ => (hashtable_EXIST, context)
  | none =>
    let head := context.table.getD (context.hash key) []
    let cell : hashtable_Cell K V := { key := key, data := data }
    (hashtable_NOT_EXIST, { context with table := context.table.set (context.hash key) (cell :: head) })

/-- The write `cell->data = data` of `hashtable_update` through the pointer returned by
`hashtable_find_private`: the first cell whose key compares equal to `key` gets `data`. -/
def update_loop (compareKey : K → K → Bool) (key : K) (data : V) :
    List (hashtable_Cell K V) → List (hashtable_Cell K V)
  | [] => []
  | cell :: next =>
    if compareKey cell.key key then { cell with data := data } :: next
    else cell :: update_loop compareKey key data next

/-- Embedding of `hashtable_update`. -/
def hashtable_update (context : hashtable_Context K V) (key : K) (data : V) :
    hashtable_Context K V :=
  match hashtable_find_private context key with
  | none => context
  | some _ =>
    { context with
      table := context.table.set (context.hash key)
        (update_loop context.compareKey key data (context.table.getD (context.hash key) [])) }

/-- Embedding of `hashtable_delete`. -/
def hashtable_delete (context : hashtable_Context K V) (key : K) : hashtable_Context K V :=
  hashtable_delete_private context key

/-- Embedding of `hashtable_get`: `none` is the `NULL` returned for a missing key. -/
def hashtable_get (context : hashtable_Context K V) (key : K) : Option V :=
  match hashtable_find_private context key with
  | some cell => some cell.data
  | none => none

/-- The bucket scan of `hashtable_next` (the outer `for` over `context->i`), started at
bucket `i` with `fuel = tableSize - i` iterations left.  The inner `for` returns in its
first iteration, so a non-empty bucket yields its head and parks the cursor on the rest. -/
def next_scan (context : hashtable_Context K V) :
    Nat → Nat → Option (hashtable_Cell K V) × hashtable_Context K V
  | 0, _ => (none, { context with i := 0, currentCell := [] })
  | fuel + 1, i =>
    if i < context.tableSize then
      match context.table.getD i [] with
      | returnCell :: next => (some returnCell, { context with i := i, currentCell := next })
      | [] => next_scan context fuel (i + 1)
    else (none, { context with i := 0, currentCell := [] })

/-- Embedding of `hashtable_next`: the returned cell (`none` for `NULL`) and the context
afterwards. -/
def hashtable_next (context : hashtable_Context K V) :
    Option (hashtable_Cell K V) × hashtable_Context K V :=
  match context.currentCell with
  | returnCell :: next => (some returnCell, { context with currentCell := next })
  | [] => next_scan context (context.tableSize - (context.i + 1)) (context.i + 1)

/-- One call of the public interface. -/
inductive Op (K V : Type) where
  | insert (key : K) (data : V)
  | update (key : K) (data : V)
  | delete (key : K)
  | get (key : K)
  | find (key : K)
  | next

/-- The calls that change the chains: insert, update and delete. -/
def Op.isMutation : Op K V → Bool
  | Op.insert _ _ => true
  | Op.update _ _ => true
  | Op.delete _ => true
  | _ => false

/-- The context after one call; the value returned to the caller is dropped. -/
def Op.apply (context : hashtable_Context K V) : Op K V → hashtable_Context K V
  | Op.insert key data => (hashtable_insert context key data).2
  | Op.update key data => hashtable_update context key data
  | Op.delete key => hashtable_delete context key
  | Op.get _ => context
  | Op.find _ => context
  | Op.next => (hashtable_next context).2

/-- The context after a sequence of calls, first call first. -/
def run (context : hashtable_Context K V) (ops : List (Op K V)) : hashtable_Context K V :=
  ops.foldl Op.apply context

/-- A caller that calls `hashtable_next` until it first returns `NULL` (at most `fuel`
calls that return a cell): the cells returned, in order, and the context afterwards. -/
def sweep : Nat → hashtable_Context K V → List (hashtable_Cell K V) × hashtable_Context K V
  | 0, context => ([], context)
  | fuel + 1, context =>
    match hashtable_next context with
    | (none, context') => ([], context')
    | (some cell, context') => (cell :: (sweep fuel context').1, (sweep fuel context').2)

/-- The table has the `tableSize` buckets allocated by `hashtable_initialize`. -/
def Allocated (context : hashtable_Context K V) : Prop :=
  context.table.length = context.tableSize

/-- The relation `compareKey` is an equivalence relation on keys. -/
structure KeyEquivalence (compareKey : K → K → Bool) : Prop where
  refl : ∀ a, compareKey a a = true
  symm : ∀ a b, compareKey a b = true → compareKey b a = true
  trans : ∀ a b c, compareKey a b = true → compareKey b c = true → compareKey a c = true

/-- Number of cells of a chain whose key compares equal to `key`. -/
def matches_in (compareKey : K → K → Bool) (key : K) (chain : List (hashtable_Cell K V)) : Nat :=
  chain.countP (fun cell => compareKey cell.key key)

/-- No chain of the table holds two cells whose keys compare equal to one and the same key. -/
def Distinct (context : hashtable_Context K V) : Prop :=
  ∀ chain ∈ context.table, ∀ key, matches_in context.compareKey key chain ≤ 1

end Operations

section Examples

/-- Example hash of the scenarios: `k mod 4`. -/
def mod4 (k : Nat) : Nat := k % 4

/-- Example key comparison: equality of numbers. -/
def sameNat (a b : Nat) : Bool := decide (a = b)

/-- A comparison that is not reflexive: two keys compare equal when they differ. -/
def differ (a b : Nat) : Bool := decide (a ≠ b)

/-- Capacity 4, `hash k = k mod 4`, after `Insert(1, 10)` and `Insert(5, 20)`. -/
def collide : hashtable_Context Nat Nat :=
  run ( hashtable_initialize Nat 4 mod4 sameNat) [Op.insert 1 10, Op.insert 5 20]

/-- Capacity 4, `hash k = k mod 4`, after `Insert(4, 10)`: one entry, in bucket 0. -/
def bucketZero : hashtable_Context Nat Nat :=
  run ( hashtable_initialize Nat 4 mod4 sameNat) [Op.insert 4 10]

/-- Capacity 1, every key in bucket 0, compared with `differ`. -/
def irreflexive : hashtable_Context Nat Nat :=
  hashtable_initialize Nat 1 (fun _ => 0) differ

end Examples

section Harness

/-- The constant `hashtable_TABLE_MAXSIZE` of `hashtable.h`, two to the sixteenth. -/
def hashtable_TABLE_MAXSIZE : Nat := 65536

/-- The `struct __hashtable_Key`: its only member is the address, `addr.s_addr`, an
unsigned 32-bit value. -/
structure hashtable_Key where
  s_addr : Nat
deriving DecidableEq

/-- Embedding of `hashtable_hash_private`: the low and the high 16 bits of the address,
combined with exclusive or. -/
def hashtable_hash_private (key : hashtable_Key) : Nat :=
  (key.s_addr &&& 0xffff) ^^^ ((key.s_addr >>> 16) &&& 0xffff)

/-- Embedding of `hashtable_compareKey_private`: `memcmp` over the four bytes of the key is
zero exactly when the two addresses are the same. -/
def hashtable_compareKey_private (key1 key2 : hashtable_Key) : Bool :=
  decide (key1.s_addr = key2.s_addr)

end Harness

section Sweeps

variable {K V : Type}

/-- The cells a walk has still to return from a cursor state: the part of the current
chain the cursor is parked on, then the chains of the buckets after bucket `i`. -/
def remaining (context : hashtable_Context K V) : List (hashtable_Cell K V) :=
  context.currentCell ++ (context.table.drop (context.i + 1)).flatten

/-- The cursor is `NULL`, or it is parked inside the chain of bucket `i` and `i` is not 0. -/
def CursorPastZero (context : hashtable_Context K V) : Prop :=
  context.currentCell = [] ∨
    (1 ≤ context.i ∧ List.IsSuffix context.currentCell (context.table.getD context.i []))

/-- Every cell of the chain of bucket `j` has a key that hashes to `j`. -/
def Placed (context : hashtable_Context K V) : Prop :=
  ∀ j, ∀ cell ∈ context.table.getD j [], context.hash cell.key = j

end Sweeps

section Reference

variable {K V : Type}

/-- Reference map, insert: the binding is added only if `key` is absent. -/
def ref_insert (compareKey : K → K → Bool) (m : K → Option V) (key : K) (data : V) :
    K → Option V :=
  match m key with
  | some _ => m
  | none => fun probe => if compareKey key probe then some data else m probe

/-- Reference map, update: the binding is replaced only if `key` is present. -/
def ref_update (compareKey : K → K → Bool) (m : K → Option V) (key : K) (data : V) :
    K → Option V :=
  match m key with
  | none => m
  | some _ => fun probe => if compareKey key probe then some data else m probe

/-- Reference map, delete: the binding of `key` is removed. -/
def ref_delete (compareKey : K → K → Bool) (m : K → Option V) (key : K) : K → Option V :=
  fun probe => if compareKey key probe then none else m probe

/-- The reference map after one call; get, find and next leave it alone. -/
def ref_apply (compareKey : K → K → Bool) (m : K → Option V) : Op K V → K → Option V
  | Op.insert key data => ref_insert compareKey m key data
  | Op.update key data => ref_update compareKey m key data
  | Op.delete key => ref_delete compareKey m key
  | _ => m

/-- The reference map after a sequence of calls on the empty map, first call first. -/
def ref_run (compareKey : K → K → Bool) (ops : List (Op K V)) : K → Option V :=
  ops.foldl (ref_apply compareKey) (fun _ => none)

end Reference

section MoreExamples

/-- Capacity 4, `hash k = k mod 4`, after `Insert(2, 10)`. -/
def single : hashtable_Context Nat Nat :=
  run ( hashtable_initialize Nat 4 mod4 sameNat) [Op.insert 2 10]

/-- Capacity 4, `hash k = k mod 4`, keys 4, 1, 5, 2, 3 inserted in that order. -/
def filled : hashtable_Context Nat Nat :=
  run ( hashtable_initialize Nat 4 mod4 sameNat)
    [Op.insert 4 40, Op.insert 1 10, Op.insert 5 50, Op.insert 2 20, Op.insert 3 30]

/-- A comparison that reports every two keys equal, whatever their hash. -/
def allEqual (_a _b : Nat) : Bool := true

/-- Capacity 1, every key in bucket 0, compared with `differ`, after `Insert(0, 10)`. -/
def storedZero : hashtable_Context Nat Nat :=
  run irreflexive [Op.insert 0 10]

/-- Capacity 4, `hash k = k mod 4`, compared with `allEqual`, after `Insert(1, 10)`. -/
def looseKeys : hashtable_Context Nat Nat :=
  run ( hashtable_initialize Nat 4 mod4 allEqual) [Op.insert 1 10]

end MoreExamples

section Lemmas

variable {K V : Type}

theorem getD_set_same {α : Type} (l : List (List α)) (j : Nat) (c : List α) (h : j < l.length) :
    (l.set j c).getD j [] = c := by
  simp [List.getD_eq_getElem?_getD, List.getElem?_set, h]

theorem getD_set_other {α : Type} (l : List (List α)) (j m : Nat) (c : List α) (h : j ≠ m) :
    (l.set j c).getD m [] = l.getD m [] := by
  simp [List.getD_eq_getElem?_getD, List.getElem?_set, h]

theorem set_getD_same {α : Type} (l : List (List α)) (j : Nat) :
    l.set j (l.getD j []) = l := by
  apply List.ext_getElem?
  intro m
  by_cases hm : j = m
  · subst hm
    by_cases hj : j < l.length
    · simp [List.getD_eq_getElem?_getD, List.getElem?_set, hj]
    · have hj2 : l.length ≤ j := Nat.le_of_not_lt hj
      simp [List.getElem?_set, hj, hj2]
  · simp [List.getElem?_set, hm]

theorem find_loop_none_iff (compareKey : K → K → Bool) (key : K)
    (chain : List (hashtable_Cell K V)) :
    find_loop compareKey key chain = none ↔ ∀ cell ∈ chain, compareKey cell.key key = false := by
  induction chain with
  | nil => simp [find_loop]
  | cons cell next ih =>
    by_cases hc : compareKey cell.key key = true
    · simp [find_loop, hc]
    · simp [find_loop, hc, ih]

theorem find_loop_some_key (compareKey : K → K → Bool) (key : K)
    (chain : List (hashtable_Cell K V)) (found : hashtable_Cell K V)
    (h : find_loop compareKey key chain = some found) :
    found ∈ chain ∧ compareKey found.key key = true := by
  induction chain with
  | nil => simp [find_loop] at h
  | cons cell next ih =>
    by_cases hc : compareKey cell.key key = true
    · simp [find_loop, hc] at h
      subst h
      simp [hc]
    · simp [find_loop, hc] at h
      have := ih h
      exact ⟨List.mem_cons_of_mem _ this.1, this.2⟩

theorem delete_loop_none_iff (compareKey : K → K → Bool) (key : K)
    (chain : List (hashtable_Cell K V)) :
    delete_loop compareKey key chain = none ↔ find_loop compareKey key chain = none := by
  induction chain with
  | nil => simp [delete_loop, find_loop]
  | cons cell next ih =>
    by_cases hc : compareKey cell.key key = true
    · simp [delete_loop, find_loop, hc]
    · simp only [delete_loop, find_loop, hc]
      cases hd : delete_loop compareKey key next with
      | none => simpa [hd] using ih
      | some r =>
        have : find_loop compareKey key next ≠ none := fun hf => by
          rw [← ih, hd] at hf
          cases hf
        simpa using this

theorem update_loop_keys (compareKey : K → K → Bool) (key : K) (data : V)
    (chain : List (hashtable_Cell K V)) :
    (update_loop compareKey key data chain).map (fun cell => cell.key)
      = chain.map (fun cell => cell.key) := by
  induction chain with
  | nil => simp [update_loop]
  | cons cell next ih =>
    by_cases hc : compareKey cell.key key = true
    · simp [update_loop, hc]
    · simp [update_loop, hc, ih]

theorem find_update_loop (compareKey : K → K → Bool) (key : K) (data : V)
    (chain : List (hashtable_Cell K V)) (found : hashtable_Cell K V)
    (h : find_loop compareKey key chain = some found) :
    find_loop compareKey key (update_loop compareKey key data chain)
      = some { found with data := data } := by
  induction chain with
  | nil => simp [find_loop] at h
  | cons cell next ih =>
    by_cases hc : compareKey cell.key key = true
    · simp [find_loop, hc] at h
      subst h
      simp [update_loop, find_loop, hc]
    · simp [find_loop, hc] at h
      simp [update_loop, find_loop, hc, ih h]

theorem next_scan_all_empty (context : hashtable_Context K V)
    (hempty : ∀ j, context.table.getD j [] = []) (fuel i : Nat) :
    next_scan context fuel i = (none, { context with i := 0, currentCell := [] }) := by
  induction fuel generalizing i with
  | zero => simp [next_scan]
  | succ fuel ih =>
    by_cases hi : i < context.tableSize
    · simp only [next_scan, if_pos hi, hempty i]
      exact ih (i + 1)
    · simp only [next_scan, if_neg hi]

theorem getD_replicate_nil {α : Type} (n j : Nat) :
    (List.replicate n ([] : List α)).getD j [] = [] := by
  by_cases hj : j < n
  · simp [List.getD_eq_getElem?_getD, List.getElem?_replicate, hj]
  · simp [List.getD_eq_getElem?_getD, List.getElem?_replicate, hj]

theorem map_keys_set_update (compareKey : K → K → Bool) (key : K) (data : V)
    (table : List (List (hashtable_Cell K V))) (j : Nat) :
    (table.set j (update_loop compareKey key data (table.getD j []))).map
        (fun chain => chain.map (fun cell => cell.key))
      = table.map (fun chain => chain.map (fun cell => cell.key)) := by
  apply List.ext_getElem?
  intro m
  by_cases hm : j = m
  · subst hm
    by_cases hj : j < table.length
    · simp [List.getElem?_map, List.getElem?_set, hj, List.getD_eq_getElem?_getD,
        update_loop_keys]
    · have hj2 : table.length ≤ j := Nat.le_of_not_lt hj
      simp [List.getElem?_map, List.getElem?_set, hj, hj2, List.getElem?_eq_none hj2]
  · simp [List.getElem?_map, List.getElem?_set, hm]

theorem insert_absent (context : hashtable_Context K V) (k : K) (v : V)
    (habsent : hashtable_find_private context k = none) :
    hashtable_insert context k v =
      (hashtable_NOT_EXIST,
        { context with
          table := context.table.set (context.hash k)
            ({ key := k, data := v } :: context.table.getD (context.hash k) []) }) := by
  simp only [hashtable_insert, habsent]

theorem insert_present (context : hashtable_Context K V) (k : K) (v : V)
    (found : hashtable_Cell K V) (hfound : hashtable_find_private context k = some found) :
    hashtable_insert context k v = (hashtable_EXIST, context) := by
  simp only [hashtable_insert, hfound]

theorem get_eq_map (context : hashtable_Context K V) (k : K) :
    hashtable_get context k = (hashtable_find_private context k).map (fun cell => cell.data) := by
  unfold hashtable_get
  cases hashtable_find_private context k <;> rfl

theorem getD_mem {α : Type} (l : List (List α)) (j : Nat) (h : l.getD j [] ≠ []) :
    l.getD j [] ∈ l := by
  rw [List.getD_eq_getElem?_getD] at h ⊢
  cases hj : l[j]? with
  | none => rw [hj] at h; exact absurd rfl h
  | some chain => exact List.getElem?_mem hj

theorem mem_set_cases {α : Type} (l : List (List α)) (j : Nat) (c x : List α)
    (h : x ∈ l.set j c) : x ∈ l ∨ (x = c ∧ j < l.length) := by
  by_cases hj : j < l.length
  · rcases List.mem_or_eq_of_mem_set h with hx | hx
    · exact Or.inl hx
    · exact Or.inr ⟨hx, hj⟩
  · rw [List.set_eq_of_length_le (Nat.le_of_not_lt hj)] at h
    exact Or.inl h

theorem getD_of_length_le {α : Type} (l : List (List α)) (j : Nat) (h : l.length ≤ j) :
    l.getD j [] = [] := by
  rw [List.getD_eq_getElem?_getD, List.getElem?_eq_none h]
  rfl

/-- Reading a bucket after one bucket was rewritten: a scan for `key` sees no change when
the rewritten chain answers the scan like the chain it replaces. -/
theorem find_after_set (compareKey : K → K → Bool) (key : K)
    (table : List (List (hashtable_Cell K V))) (j m : Nat) (chain : List (hashtable_Cell K V))
    (hchain : j = m → find_loop compareKey key chain = find_loop compareKey key (table.getD j [])) :
    find_loop compareKey key ((table.set j chain).getD m [])
      = find_loop compareKey key (table.getD m []) := by
  by_cases hm : j = m
  · subst hm
    by_cases hj : j < table.length
    · rw [getD_set_same _ _ _ hj]
      exact hchain rfl
    · rw [List.set_eq_of_length_le (Nat.le_of_not_lt hj)]
  · rw [getD_set_other _ _ _ _ hm]

theorem matches_in_zero_iff (compareKey : K → K → Bool) (key : K)
    (chain : List (hashtable_Cell K V)) :
    matches_in compareKey key chain = 0 ↔ find_loop compareKey key chain = none := by
  rw [find_loop_none_iff]
  unfold matches_in
  rw [List.countP_eq_zero]
  constructor
  · intro h cell hcell
    simpa using h cell hcell
  · intro h cell hcell
    simpa using h cell hcell

theorem matches_in_update (compareKey : K → K → Bool) (key probe : K) (data : V)
    (chain : List (hashtable_Cell K V)) :
    matches_in compareKey probe (update_loop compareKey key data chain)
      = matches_in compareKey probe chain := by
  induction chain with
  | nil => rfl
  | cons cell next ih =>
    unfold matches_in at ih ⊢
    by_cases hc : compareKey cell.key key = true
    · simp only [update_loop, hc, if_true, List.countP_cons]
    · simp only [update_loop, hc, Bool.false_eq_true, if_false, List.countP_cons, ih]

theorem matches_in_delete_le (compareKey : K → K → Bool) (key probe : K)
    (chain rest : List (hashtable_Cell K V)) (found : hashtable_Cell K V)
    (h : delete_loop compareKey key chain = some (found, rest)) :
    matches_in compareKey probe rest ≤ matches_in compareKey probe chain := by
  induction chain generalizing rest with
  | nil => simp [delete_loop] at h
  | cons cell next ih =>
    unfold matches_in at ih ⊢
    by_cases hc : compareKey cell.key key = true
    · simp only [delete_loop, hc, if_true, Option.some.injEq, Prod.mk.injEq] at h
      rw [← h.2, List.countP_cons]
      exact Nat.le_add_right _ _
    · simp only [delete_loop, hc, Bool.false_eq_true, if_false] at h
      cases hd : delete_loop compareKey key next with
      | none => simp [hd] at h
      | some r =>
        obtain ⟨found', rest'⟩ := r
        simp only [hd, Option.some.injEq, Prod.mk.injEq] at h
        rw [← h.2, List.countP_cons, List.countP_cons]
        exact Nat.add_le_add_right (ih rest' (by rw [hd, h.1])) _

theorem matches_in_delete_self (compareKey : K → K → Bool) (key : K)
    (chain rest : List (hashtable_Cell K V)) (found : hashtable_Cell K V)
    (h : delete_loop compareKey key chain = some (found, rest)) :
    matches_in compareKey key chain = matches_in compareKey key rest + 1 := by
  induction chain generalizing rest with
  | nil => simp [delete_loop] at h
  | cons cell next ih =>
    unfold matches_in at ih ⊢
    by_cases hc : compareKey cell.key key = true
    · simp only [delete_loop, hc, if_true, Option.some.injEq, Prod.mk.injEq] at h
      rw [← h.2, List.countP_cons]
      simp [hc]
    · simp only [delete_loop, hc, Bool.false_eq_true, if_false] at h
      cases hd : delete_loop compareKey key next with
      | none => simp [hd] at h
      | some r =>
        obtain ⟨found', rest'⟩ := r
        simp only [hd, Option.some.injEq, Prod.mk.injEq] at h
        rw [← h.2, List.countP_cons, List.countP_cons, ih rest' (by rw [hd, h.1])]
        simp [hc]

theorem delete_cases (context : hashtable_Context K V) (k : K) :
    (hashtable_delete context k = context ∧
        find_loop context.compareKey k (context.table.getD (context.hash k) []) = none) ∨
      ∃ found rest,
        delete_loop context.compareKey k (context.table.getD (context.hash k) [])
          = some (found, rest) ∧
        hashtable_delete context k =
          { context with
            table := context.table.set (context.hash k) rest
            calls := context.calls ++
              [Callback.destroyData found.data, Callback.destroyKey found.key] } := by
  unfold hashtable_delete hashtable_delete_private
  cases hchain : context.table.getD (context.hash k) [] with
  | nil => exact Or.inl ⟨rfl, rfl⟩
  | cons cell next =>
    cases hd : delete_loop context.compareKey k (cell :: next) with
    | none =>
      refine Or.inl ⟨?_, (delete_loop_none_iff _ _ _).1 hd⟩
      simp only [hd]
    | some r =>
      obtain ⟨found, rest⟩ := r
      refine Or.inr ⟨found, rest, rfl, ?_⟩
      simp only [hd]

theorem update_cases (context : hashtable_Context K V) (k : K) (v : V) :
    hashtable_update context k v = context ∨
      hashtable_update context k v =
        { context with
          table := context.table.set (context.hash k)
            (update_loop context.compareKey k v (context.table.getD (context.hash k) [])) } := by
  unfold hashtable_update
  cases hashtable_find_private context k with
  | none => exact Or.inl rfl
  | some found => exact Or.inr rfl

theorem insert_cases (context : hashtable_Context K V) (k : K) (v : V) :
    (hashtable_insert context k v).2 = context ∨
      (find_loop context.compareKey k (context.table.getD (context.hash k) []) = none ∧
        (hashtable_insert context k v).2 =
          { context with
            table := context.table.set (context.hash k)
              ({ key := k, data := v } :: context.table.getD (context.hash k) []) }) := by
  cases hf : hashtable_find_private context k with
  | none =>
    rw [insert_absent context k v hf]
    exact Or.inr ⟨hf, rfl⟩
  | some found =>
    rw [insert_present context k v found hf]
    exact Or.inl rfl

theorem next_scan_chains (context : hashtable_Context K V) (fuel i : Nat) :
    (next_scan context fuel i).2.table = context.table ∧
      (next_scan context fuel i).2.compareKey = context.compareKey ∧
      (next_scan context fuel i).2.hash = context.hash ∧
      (next_scan context fuel i).2.tableSize = context.tableSize ∧
      (next_scan context fuel i).2.calls = context.calls := by
  induction fuel generalizing i with
  | zero => simp only [next_scan, and_self]
  | succ fuel ih =>
    by_cases hi : i < context.tableSize
    · simp only [next_scan, if_pos hi]
      cases context.table.getD i [] with
      | nil => exact ih (i + 1)
      | cons cell next => simp only [and_self]
    · simp only [next_scan, if_neg hi, and_self]

theorem next_chains (context : hashtable_Context K V) :
    (hashtable_next context).2.table = context.table ∧
      (hashtable_next context).2.compareKey = context.compareKey ∧
      (hashtable_next context).2.hash = context.hash ∧
      (hashtable_next context).2.tableSize = context.tableSize ∧
      (hashtable_next context).2.calls = context.calls := by
  unfold hashtable_next
  cases context.currentCell with
  | nil => exact next_scan_chains context _ _
  | cons cell next => simp only [and_self]

theorem distinct_insert (context : hashtable_Context K V) (k : K) (v : V)
    (hsymm : ∀ a b, context.compareKey a b = true → context.compareKey b a = true)
    (htrans : ∀ a b c, context.compareKey a b = true → context.compareKey b c = true →
      context.compareKey a c = true)
    (hd : Distinct context) :
    (hashtable_insert context k v).2.compareKey = context.compareKey ∧
      Distinct (hashtable_insert context k v).2 := by
  rcases insert_cases context k v with h | ⟨habsent, h⟩
  · rw [h]
    exact ⟨rfl, hd⟩
  · rw [h]
    refine ⟨rfl, ?_⟩
    intro chain hchain probe
    rcases mem_set_cases _ _ _ _ hchain with hold | ⟨hnew, hlen⟩
    · exact hd chain hold probe
    · subst hnew
      show matches_in context.compareKey probe _ ≤ 1
      by_cases hne : context.table.getD (context.hash k) [] = []
      · rw [hne]
        unfold matches_in
        rw [List.countP_cons]
        split <;> simp
      · have hmem := getD_mem _ _ hne
        by_cases hp : context.compareKey k probe = true
        · have hzero : matches_in context.compareKey probe
              (context.table.getD (context.hash k) []) = 0 := by
            rw [matches_in_zero_iff, find_loop_none_iff]
            intro cell hcell
            cases hcp : context.compareKey cell.key probe with
            | false => rfl
            | true =>
              have hck : context.compareKey cell.key k = true :=
                htrans _ _ _ hcp (hsymm _ _ hp)
              rw [(find_loop_none_iff _ _ _).1 habsent cell hcell] at hck
              cases hck
          unfold matches_in at hzero ⊢
          rw [List.countP_cons, hzero]
          split <;> simp
        · have := hd _ hmem probe
          unfold matches_in at this ⊢
          rw [List.countP_cons]
          simpa [hp] using this

theorem distinct_update (context : hashtable_Context K V) (k : K) (v : V)
    (hd : Distinct context) :
    (hashtable_update context k v).compareKey = context.compareKey ∧
      Distinct (hashtable_update context k v) := by
  rcases update_cases context k v with h | h
  · rw [h]
    exact ⟨rfl, hd⟩
  · rw [h]
    refine ⟨rfl, ?_⟩
    intro chain hchain probe
    rcases mem_set_cases _ _ _ _ hchain with hold | ⟨hnew, hlen⟩
    · exact hd chain hold probe
    · subst hnew
      show matches_in context.compareKey probe _ ≤ 1
      rw [matches_in_update]
      by_cases hne : context.table.getD (context.hash k) [] = []
      · rw [hne]
        exact Nat.zero_le _
      · exact hd _ (getD_mem _ _ hne) probe

theorem distinct_delete (context : hashtable_Context K V) (k : K)
    (hd : Distinct context) :
    (hashtable_delete context k).compareKey = context.compareKey ∧
      Distinct (hashtable_delete context k) := by
  rcases delete_cases context k with ⟨h, _⟩ | ⟨found, rest, hloop, h⟩
  · rw [h]
    exact ⟨rfl, hd⟩
  · rw [h]
    refine ⟨rfl, ?_⟩
    intro chain hchain probe
    rcases mem_set_cases _ _ _ _ hchain with hold | ⟨hnew, hlen⟩
    · exact hd chain hold probe
    · subst hnew
      show matches_in context.compareKey probe _ ≤ 1
      have hne : context.table.getD (context.hash k) [] ≠ [] := by
        intro hnil
        rw [hnil] at hloop
        simp [delete_loop] at hloop
      exact Nat.le_trans (matches_in_delete_le _ _ probe _ _ _ hloop)
        (hd _ (getD_mem _ _ hne) probe)

theorem distinct_next (context : hashtable_Context K V) (hd : Distinct context) :
    (hashtable_next context).2.compareKey = context.compareKey ∧
      Distinct (hashtable_next context).2 := by
  have h := next_chains context
  refine ⟨h.2.1, ?_⟩
  intro chain hchain probe
  rw [h.1] at hchain
  rw [h.2.1]
  exact hd chain hchain probe

theorem distinct_at_start (N : Nat) (hash : K → Nat) (compareKey : K → K → Bool) :
    Distinct ( hashtable_initialize V N hash compareKey) := by
  intro chain hchain probe
  have : chain = [] := (List.mem_replicate.1 hchain).2
  rw [this]
  exact Nat.zero_le _

theorem distinct_run (compareKey : K → K → Bool)
    (hsymm : ∀ a b, compareKey a b = true → compareKey b a = true)
    (htrans : ∀ a b c, compareKey a b = true → compareKey b c = true → compareKey a c = true)
    (ops : List (Op K V)) (context : hashtable_Context K V)
    (hcmp : context.compareKey = compareKey) (hd : Distinct context) :
    (run context ops).compareKey = compareKey ∧ Distinct (run context ops) := by
  induction ops generalizing context with
  | nil => exact ⟨hcmp, hd⟩
  | cons op ops ih =>
    have hstep : (Op.apply context op).compareKey = context.compareKey ∧
        Distinct (Op.apply context op) := by
      cases op with
      | insert key data =>
        exact distinct_insert context key data (by rw [hcmp]; exact hsymm)
          (by rw [hcmp]; exact htrans) hd
      | update key data => exact distinct_update context key data hd
      | delete key => exact distinct_delete context key hd
      | get key => exact ⟨rfl, hd⟩
      | find key => exact ⟨rfl, hd⟩
      | next => exact distinct_next context hd
    exact ih (Op.apply context op) (by rw [hstep.1, hcmp]) hstep.2

theorem find_cons_other (compareKey : K → K → Bool) (k probe : K) (v : V)
    (chain : List (hashtable_Cell K V)) (hne : compareKey k probe = false) :
    find_loop compareKey probe ({ key := k, data := v } :: chain)
      = find_loop compareKey probe chain := by
  simp only [find_loop, hne, Bool.false_eq_true, if_false]

theorem compare_other (compareKey : K → K → Bool)
    (hsymm : ∀ a b, compareKey a b = true → compareKey b a = true)
    (htrans : ∀ a b c, compareKey a b = true → compareKey b c = true → compareKey a c = true)
    (k probe stored : K) (hne : compareKey k probe = false)
    (hstored : compareKey stored k = true) : compareKey stored probe = false := by
  cases hsp : compareKey stored probe with
  | false => rfl
  | true =>
    rw [htrans _ _ _ (hsymm _ _ hstored) hsp] at hne
    cases hne

theorem find_update_other (compareKey : K → K → Bool)
    (hsymm : ∀ a b, compareKey a b = true → compareKey b a = true)
    (htrans : ∀ a b c, compareKey a b = true → compareKey b c = true → compareKey a c = true)
    (k probe : K) (v : V) (hne : compareKey k probe = false)
    (chain : List (hashtable_Cell K V)) :
    find_loop compareKey probe (update_loop compareKey k v chain)
      = find_loop compareKey probe chain := by
  induction chain with
  | nil => rfl
  | cons cell next ih =>
    by_cases hc : compareKey cell.key k = true
    · have hp := compare_other compareKey hsymm htrans k probe cell.key hne hc
      simp only [update_loop, hc, if_true, find_loop, hp, Bool.false_eq_true, if_false]
    · simp only [update_loop, hc, Bool.false_eq_true, if_false, find_loop, ih]

theorem find_delete_other (compareKey : K → K → Bool)
    (hsymm : ∀ a b, compareKey a b = true → compareKey b a = true)
    (htrans : ∀ a b c, compareKey a b = true → compareKey b c = true → compareKey a c = true)
    (k probe : K) (hne : compareKey k probe = false)
    (chain rest : List (hashtable_Cell K V)) (found : hashtable_Cell K V)
    (h : delete_loop compareKey k chain = some (found, rest)) :
    find_loop compareKey probe rest = find_loop compareKey probe chain := by
  induction chain generalizing rest with
  | nil => simp [delete_loop] at h
  | cons cell next ih =>
    by_cases hc : compareKey cell.key k = true
    · have hp := compare_other compareKey hsymm htrans k probe cell.key hne hc
      simp only [delete_loop, hc, if_true, Option.some.injEq, Prod.mk.injEq] at h
      rw [← h.2]
      simp only [find_loop, hp, Bool.false_eq_true, if_false]
    · simp only [delete_loop, hc, Bool.false_eq_true, if_false] at h
      cases hd : delete_loop compareKey k next with
      | none => simp [hd] at h
      | some r =>
        obtain ⟨found', rest'⟩ := r
        simp only [hd, Option.some.injEq, Prod.mk.injEq] at h
        rw [← h.2]
        simp only [find_loop, ih rest' (by rw [hd, h.1])]

/-- Frame of the three mutations on a scan for another key: when `compareKey k probe` is
false, `hashtable_find_private probe` answers the same before and after
`hashtable_insert k v`, `hashtable_update k v` and `hashtable_delete k`. -/
theorem find_other_key (context : hashtable_Context K V) (k probe : K) (v : V)
    (hsymm : ∀ a b, context.compareKey a b = true → context.compareKey b a = true)
    (htrans : ∀ a b c, context.compareKey a b = true → context.compareKey b c = true →
      context.compareKey a c = true)
    (hne : context.compareKey k probe = false) :
    hashtable_find_private (hashtable_insert context k v).2 probe
        = hashtable_find_private context probe ∧
      hashtable_find_private (hashtable_update context k v) probe
        = hashtable_find_private context probe ∧
      hashtable_find_private (hashtable_delete context k) probe
        = hashtable_find_private context probe := by
  refine ⟨?_, ?_, ?_⟩
  · rcases insert_cases context k v with h | ⟨_, h⟩
    · rw [h]
    · rw [h]
      simp only [hashtable_find_private]
      apply find_after_set
      intro _
      by_cases hj : context.hash k < context.table.length
      · exact find_cons_other _ _ _ _ _ hne
      · rw [getD_of_length_le _ _ (Nat.le_of_not_lt hj)]
        exact find_cons_other _ _ _ _ _ hne
  · rcases update_cases context k v with h | h
    · rw [h]
    · rw [h]
      simp only [hashtable_find_private]
      apply find_after_set
      intro _
      exact find_update_other _ hsymm htrans _ _ _ hne _
  · rcases delete_cases context k with ⟨h, _⟩ | ⟨found, rest, hloop, h⟩
    · rw [h]
    · rw [h]
      simp only [hashtable_find_private]
      apply find_after_set
      intro _
      exact find_delete_other _ hsymm htrans _ _ hne _ _ _ hloop

/-- After `hashtable_delete k` on a table without duplicate keys, a scan for `k` finds
nothing. -/
theorem find_deleted_key (context : hashtable_Context K V) (k : K) (hd : Distinct context) :
    hashtable_find_private (hashtable_delete context k) k = none := by
  rcases delete_cases context k with ⟨h, hnone⟩ | ⟨found, rest, hloop, h⟩
  · rw [h]
    exact hnone
  · rw [h]
    have hne : context.table.getD (context.hash k) [] ≠ [] := by
      intro hnil
      rw [hnil] at hloop
      simp [delete_loop] at hloop
    have hlen : context.hash k < context.table.length := by
      apply Nat.lt_of_not_le
      intro hle
      exact hne (getD_of_length_le _ _ hle)
    simp only [hashtable_find_private, getD_set_same _ _ _ hlen]
    rw [← matches_in_zero_iff]
    have hone := hd _ (getD_mem _ _ hne) k
    rw [matches_in_delete_self _ _ _ _ _ hloop] at hone
    exact Nat.le_zero.1 (Nat.le_of_succ_le_succ hone)

theorem sameNat_equivalence : KeyEquivalence sameNat := by
  refine ⟨?_, ?_, ?_⟩
  · intro a
    simp [sameNat]
  · intro a b h
    simp only [sameNat, decide_eq_true_eq] at h ⊢
    exact h.symm
  · intro a b c hab hbc
    simp only [sameNat, decide_eq_true_eq] at hab hbc ⊢
    exact hab.trans hbc

theorem sameNat_mod4 (a b : Nat) (h : sameNat a b = true) : mod4 a = mod4 b := by
  simp only [sameNat, decide_eq_true_eq] at h
  rw [h]

theorem mod4_range (k : Nat) : mod4 k < 4 := Nat.mod_lt k (by decide)

/-- What no call changes: the number of buckets and the stored `tableSize`, `hash` and
`compareKey`. -/
theorem apply_fields (context : hashtable_Context K V) (op : Op K V) :
    (Op.apply context op).table.length = context.table.length ∧
      (Op.apply context op).tableSize = context.tableSize ∧
      (Op.apply context op).hash = context.hash ∧
      (Op.apply context op).compareKey = context.compareKey := by
  cases op with
  | insert key data =>
    simp only [Op.apply]
    rcases insert_cases context key data with h | ⟨_, h⟩
    · rw [h]
      exact ⟨rfl, rfl, rfl, rfl⟩
    · rw [h]
      exact ⟨List.length_set _ _ _, rfl, rfl, rfl⟩
  | update key data =>
    simp only [Op.apply]
    rcases update_cases context key data with h | h
    · rw [h]
      exact ⟨rfl, rfl, rfl, rfl⟩
    · rw [h]
      exact ⟨List.length_set _ _ _, rfl, rfl, rfl⟩
  | delete key =>
    simp only [Op.apply]
    rcases delete_cases context key with ⟨h, _⟩ | ⟨found, rest, _, h⟩
    · rw [h]
      exact ⟨rfl, rfl, rfl, rfl⟩
    · rw [h]
      exact ⟨List.length_set _ _ _, rfl, rfl, rfl⟩
  | get key => exact ⟨rfl, rfl, rfl, rfl⟩
  | find key => exact ⟨rfl, rfl, rfl, rfl⟩
  | next =>
    have h := next_chains context
    simp only [Op.apply]
    rw [h.1]
    exact ⟨rfl, h.2.2.2.1, h.2.2.1, h.2.1⟩

theorem run_fields (ops : List (Op K V)) (context : hashtable_Context K V) :
    (run context ops).table.length = context.table.length ∧
      (run context ops).tableSize = context.tableSize ∧
      (run context ops).hash = context.hash ∧
      (run context ops).compareKey = context.compareKey := by
  induction ops generalizing context with
  | nil => exact ⟨rfl, rfl, rfl, rfl⟩
  | cons op ops ih =>
    have hstep := apply_fields context op
    have hrest := ih (Op.apply context op)
    exact ⟨hrest.1.trans hstep.1, hrest.2.1.trans hstep.2.1, hrest.2.2.1.trans hstep.2.2.1,
      hrest.2.2.2.trans hstep.2.2.2⟩

/-- Every table reached from `hashtable_initialize` has its `tableSize` buckets. -/
theorem allocated_run (N : Nat) (hash : K → Nat) (compareKey : K → K → Bool)
    (ops : List (Op K V)) :
    Allocated (run ( hashtable_initialize V N hash compareKey) ops) := by
  have h := run_fields ops ( hashtable_initialize V N hash compareKey)
  unfold Allocated
  rw [h.1, h.2.1]
  exact List.length_replicate _ _

/-- When the scan for `k` finds nothing, `hashtable_delete k` returns the context as it was. -/
theorem delete_not_found (context : hashtable_Context K V) (k : K)
    (hnone : hashtable_find_private context k = none) : hashtable_delete context k = context := by
  rcases delete_cases context k with ⟨h, _⟩ | ⟨found, rest, hloop, _⟩
  · exact h
  · have := (delete_loop_none_iff _ _ _).2 hnone
    rw [this] at hloop
    cases hloop

/-- On a table without duplicate keys a second `hashtable_delete k` changes nothing. -/
theorem delete_twice (context : hashtable_Context K V) (k : K) (hd : Distinct context) :
    hashtable_delete (hashtable_delete context k) k = hashtable_delete context k :=
  delete_not_found _ k (find_deleted_key context k hd)

theorem next_scan_none (context : hashtable_Context K V) (fuel i : Nat)
    (h : (next_scan context fuel i).1 = none) :
    (next_scan context fuel i).2 = { context with i := 0, currentCell := [] } := by
  induction fuel generalizing i with
  | zero => simp only [next_scan]
  | succ fuel ih =>
    by_cases hi : i < context.tableSize
    · simp only [next_scan, if_pos hi] at h ⊢
      cases hb : context.table.getD i [] with
      | nil =>
        rw [hb] at h
        exact ih (i + 1) h
      | cons cell next =>
        rw [hb] at h
        cases h
    · simp only [next_scan, if_neg hi]

theorem next_scan_some (context : hashtable_Context K V) (fuel i : Nat)
    (cell : hashtable_Cell K V) (h : (next_scan context fuel i).1 = some cell) :
    ∃ j next, i ≤ j ∧ context.table.getD j [] = cell :: next ∧
      next_scan context fuel i = (some cell, { context with i := j, currentCell := next }) := by
  induction fuel generalizing i with
  | zero =>
    simp only [next_scan] at h
    cases h
  | succ fuel ih =>
    by_cases hi : i < context.tableSize
    · simp only [next_scan, if_pos hi] at h ⊢
      cases hb : context.table.getD i [] with
      | nil =>
        rw [hb] at h
        obtain ⟨j, next, hij, hj, hscan⟩ := ih (i + 1) h
        exact ⟨j, next, Nat.le_of_succ_le hij, hj, hscan⟩
      | cons head next =>
        rw [hb] at h
        simp only [Option.some.injEq] at h
        subst h
        exact ⟨i, next, Nat.le_refl i, hb, rfl⟩
    · simp only [next_scan, if_neg hi] at h
      cases h

theorem drop_flatten_step {α : Type} (l : List (List α)) (i : Nat) (h : i < l.length) :
    (l.drop i).flatten = l.getD i [] ++ (l.drop (i + 1)).flatten := by
  rw [List.drop_eq_getElem_cons h, List.flatten_cons, List.getD_eq_getElem?_getD,
    List.getElem?_eq_getElem h]
  rfl

/-- The bucket scan started at bucket `i` returns the first cell of the chains of the
buckets `i, i + 1, ...`, and `NULL` exactly when all of them are empty. -/
theorem next_scan_spec (context : hashtable_Context K V) (halloc : Allocated context)
    (fuel i : Nat) (hfuel : fuel = context.tableSize - i) :
    ((context.table.drop i).flatten = [] ∧
        next_scan context fuel i = (none, { context with i := 0, currentCell := [] })) ∨
      ∃ cell j next,
        (context.table.drop i).flatten = cell :: (next ++ (context.table.drop (j + 1)).flatten) ∧
        next_scan context fuel i = (some cell, { context with i := j, currentCell := next }) := by
  induction fuel generalizing i with
  | zero =>
    left
    have hle : context.table.length ≤ i := by
      rw [halloc]
      exact Nat.le_of_sub_eq_zero hfuel.symm
    rw [List.drop_of_length_le hle]
    exact ⟨rfl, by simp only [next_scan]⟩
  | succ fuel ih =>
    have hi : i < context.tableSize := by
      apply Nat.lt_of_sub_pos
      rw [← hfuel]
      exact Nat.succ_pos fuel
    have hlen : i < context.table.length := by rw [halloc]; exact hi
    have hnext : fuel = context.tableSize - (i + 1) := by
      rw [Nat.sub_succ, ← hfuel]
      rfl
    rw [drop_flatten_step _ _ hlen]
    simp only [next_scan, if_pos hi]
    cases hb : context.table.getD i [] with
    | nil =>
      rw [List.nil_append]
      exact ih (i + 1) hnext
    | cons cell next =>
      right
      exact ⟨cell, i, next, rfl, rfl⟩

/-- One call of `hashtable_next`: it returns the first of the remaining cells and leaves
the rest as remaining, or there is none left, it returns `NULL` and the cursor wraps. -/
theorem next_spec (context : hashtable_Context K V) (halloc : Allocated context) :
    (remaining context = [] ∧
        hashtable_next context = (none, { context with i := 0, currentCell := [] })) ∨
      ∃ cell j next,
        remaining context = cell :: (next ++ (context.table.drop (j + 1)).flatten) ∧
        hashtable_next context = (some cell, { context with i := j, currentCell := next }) := by
  unfold remaining hashtable_next
  cases hcur : context.currentCell with
  | nil =>
    rw [List.nil_append]
    exact next_scan_spec context halloc _ (context.i + 1) rfl
  | cons cell next =>
    right
    refine ⟨cell, context.i, next, rfl, ?_⟩
    cases context
    simp only at hcur
    subst hcur
    rfl

/-- A sweep with enough fuel returns the remaining cells in order, ends on the `NULL` of
`hashtable_next` and leaves the cursor wrapped. -/
theorem sweep_spec (fuel : Nat) (context : hashtable_Context K V) (halloc : Allocated context)
    (hfuel : (remaining context).length < fuel) :
    sweep fuel context = (remaining context, { context with i := 0, currentCell := [] }) := by
  induction fuel generalizing context with
  | zero => exact absurd hfuel (Nat.not_lt_zero _)
  | succ fuel ih =>
    rcases next_spec context halloc with ⟨hrem, hnext⟩ | ⟨cell, j, next, hrem, hnext⟩
    · simp only [sweep, hnext, hrem]
    · have halloc' : Allocated { context with i := j, currentCell := next } := halloc
      have hrem' : remaining { context with i := j, currentCell := next }
          = next ++ (context.table.drop (j + 1)).flatten := rfl
      have hfuel' : (remaining { context with i := j, currentCell := next }).length < fuel := by
        rw [hrem']
        rw [hrem, List.length_cons] at hfuel
        exact Nat.lt_of_succ_lt_succ hfuel
      have hrest := ih { context with i := j, currentCell := next } halloc' hfuel'
      simp only [sweep, hnext, hrest, hrem, hrem']

theorem drop_one_flatten_sublist {α : Type} (l : List (List α)) :
    List.Sublist (l.drop 1).flatten l.flatten := by
  cases l with
  | nil => exact List.Sublist.refl _
  | cons head rest => exact List.sublist_append_right head rest.flatten

theorem remaining_at_start (context : hashtable_Context K V) (hi : context.i = 0)
    (hcur : context.currentCell = []) :
    remaining context = (context.table.drop 1).flatten := by
  unfold remaining
  rw [hi, hcur]
  rfl

theorem wrapped_eq_self (context : hashtable_Context K V) (hi : context.i = 0)
    (hcur : context.currentCell = []) :
    { context with i := 0, currentCell := [] } = context := by
  cases context
  simp only at hi hcur
  subst hi
  subst hcur
  rfl

/-- A sweep from the initial or wrapped cursor, with enough fuel, returns the chains of the
buckets `1, 2, ...` one after the other and hands back the context it started from. -/
theorem sweep_from_start (fuel : Nat) (context : hashtable_Context K V)
    (hi : context.i = 0) (hcur : context.currentCell = []) (halloc : Allocated context)
    (hfuel : context.table.flatten.length < fuel) :
    sweep fuel context = ((context.table.drop 1).flatten, context) := by
  have hrem := remaining_at_start context hi hcur
  have hlen : (remaining context).length < fuel := by
    rw [hrem]
    exact Nat.lt_of_le_of_lt (drop_one_flatten_sublist context.table).length_le hfuel
  rw [sweep_spec fuel context halloc hlen, hrem, wrapped_eq_self context hi hcur]

/-- A call of `hashtable_next` on a cursor that is `NULL` or parked past bucket 0 returns a
cell of a bucket `i >= 1` (the cell right before the new cursor position in that chain), and
leaves the cursor `NULL` or parked past bucket 0. -/
theorem cursor_next (context : hashtable_Context K V) (h : CursorPastZero context) :
    CursorPastZero (hashtable_next context).2 ∧
      (hashtable_next context).2.table = context.table ∧
      ∀ cell, (hashtable_next context).1 = some cell →
        1 ≤ (hashtable_next context).2.i ∧
        List.IsSuffix (cell :: (hashtable_next context).2.currentCell)
          (context.table.getD (hashtable_next context).2.i []) := by
  unfold hashtable_next
  cases hcur : context.currentCell with
  | nil =>
    simp only
    cases hr : (next_scan context (context.tableSize - (context.i + 1)) (context.i + 1)).1 with
    | none =>
      rw [next_scan_none context _ _ hr]
      exact ⟨Or.inl rfl, rfl, fun cell hcell => by cases hcell⟩
    | some found =>
      obtain ⟨j, next, hij, hj, hscan⟩ := next_scan_some context _ _ found hr
      rw [hscan]
      have hone : 1 ≤ j := Nat.le_trans (Nat.succ_le_succ (Nat.zero_le _)) hij
      refine ⟨Or.inr ⟨hone, ?_⟩, rfl, ?_⟩
      · show List.IsSuffix next (context.table.getD j [])
        rw [hj]
        exact List.suffix_cons found next
      · intro cell hcell
        simp only [Option.some.injEq] at hcell
        subst hcell
        refine ⟨hone, ?_⟩
        show List.IsSuffix (found :: next) (context.table.getD j [])
        exact hj ▸ List.suffix_refl _
  | cons head rest =>
    simp only
    rcases h with hnil | ⟨hone, hsuffix⟩
    · rw [hcur] at hnil
      cases hnil
    · rw [hcur] at hsuffix
      refine ⟨Or.inr ⟨hone, ?_⟩, ?_, ?_⟩
      · exact List.IsSuffix.trans (List.suffix_cons head rest) hsuffix
      · trivial
      · intro cell hcell
        simp only [Option.some.injEq] at hcell
        subst hcell
        exact ⟨hone, hsuffix⟩

theorem cursor_run_next (n : Nat) (context : hashtable_Context K V)
    (h : CursorPastZero context) :
    CursorPastZero (run context (List.replicate n Op.next)) ∧
      (run context (List.replicate n Op.next)).table = context.table := by
  induction n generalizing context with
  | zero => exact ⟨h, rfl⟩
  | succ n ih =>
    have hstep := cursor_next context h
    have hrest := ih (hashtable_next context).2 hstep.1
    exact ⟨hrest.1, hrest.2.trans hstep.2.1⟩

theorem delete_loop_split (compareKey : K → K → Bool) (key : K)
    (chain rest : List (hashtable_Cell K V)) (found : hashtable_Cell K V)
    (h : delete_loop compareKey key chain = some (found, rest)) :
    ∃ before after, chain = before ++ found :: after ∧ rest = before ++ after ∧
      (∀ cell ∈ before, compareKey cell.key key = false) ∧ compareKey found.key key = true := by
  induction chain generalizing rest with
  | nil => simp [delete_loop] at h
  | cons cell next ih =>
    by_cases hc : compareKey cell.key key = true
    · simp only [delete_loop, hc, if_true, Option.some.injEq, Prod.mk.injEq] at h
      obtain ⟨hfound, hrest⟩ := h
      subst hfound
      subst hrest
      exact ⟨[], next, rfl, rfl, fun _ hmem => absurd hmem (List.not_mem_nil _), hc⟩
    · simp only [delete_loop, hc, Bool.false_eq_true, if_false] at h
      cases hd : delete_loop compareKey key next with
      | none => simp [hd] at h
      | some r =>
        obtain ⟨found', rest'⟩ := r
        simp only [hd, Option.some.injEq, Prod.mk.injEq] at h
        obtain ⟨hfound, hrest⟩ := h
        subst hfound
        subst hrest
        obtain ⟨before, after, hchain, hrest', hbefore, hmatch⟩ := ih rest' hd
        refine ⟨cell :: before, after, by rw [hchain]; rfl, by rw [hrest']; rfl, ?_, hmatch⟩
        intro x hx
        rcases List.mem_cons.1 hx with hx | hx
        · rw [hx]
          simpa using hc
        · exact hbefore x hx

theorem mem_getD_set {α : Type} (l : List (List α)) (j m : Nat) (c : List α) (x : α)
    (h : x ∈ (l.set j c).getD m []) : x ∈ l.getD m [] ∨ (m = j ∧ x ∈ c) := by
  by_cases hm : j = m
  · subst hm
    by_cases hj : j < l.length
    · rw [getD_set_same _ _ _ hj] at h
      exact Or.inr ⟨rfl, h⟩
    · rw [List.set_eq_of_length_le (Nat.le_of_not_lt hj)] at h
      exact Or.inl h
  · rw [getD_set_other _ _ _ _ hm] at h
    exact Or.inl h

theorem update_loop_mem (compareKey : K → K → Bool) (key : K) (data : V)
    (chain : List (hashtable_Cell K V)) (x : hashtable_Cell K V)
    (h : x ∈ update_loop compareKey key data chain) : ∃ cell ∈ chain, cell.key = x.key := by
  induction chain with
  | nil => simp [update_loop] at h
  | cons cell next ih =>
    by_cases hc : compareKey cell.key key = true
    · simp only [update_loop, hc, if_true, List.mem_cons] at h
      rcases h with h | h
      · exact ⟨cell, List.mem_cons_self _ _, by rw [h]⟩
      · exact ⟨x, List.mem_cons_of_mem _ h, rfl⟩
    · simp only [update_loop, hc, Bool.false_eq_true, if_false, List.mem_cons] at h
      rcases h with h | h
      · exact ⟨cell, List.mem_cons_self _ _, by rw [h]⟩
      · obtain ⟨y, hy, hkey⟩ := ih h
        exact ⟨y, List.mem_cons_of_mem _ hy, hkey⟩

theorem placed_apply (context : hashtable_Context K V) (op : Op K V) (hp : Placed context) :
    Placed (Op.apply context op) := by
  cases op with
  | insert key data =>
    simp only [Op.apply]
    rcases insert_cases context key data with h | ⟨_, h⟩
    · rw [h]
      exact hp
    · rw [h]
      intro j cell hcell
      rcases mem_getD_set _ _ _ _ _ hcell with hold | ⟨hj, hnew⟩
      · exact hp j cell hold
      · rcases List.mem_cons.1 hnew with hhead | htail
        · rw [hhead, hj]
        · rw [hj]
          exact hp _ cell htail
  | update key data =>
    simp only [Op.apply]
    rcases update_cases context key data with h | h
    · rw [h]
      exact hp
    · rw [h]
      intro j cell hcell
      rcases mem_getD_set _ _ _ _ _ hcell with hold | ⟨hj, hnew⟩
      · exact hp j cell hold
      · obtain ⟨y, hy, hkey⟩ := update_loop_mem _ _ _ _ _ hnew
        show context.hash cell.key = j
        rw [← hkey, hj]
        exact hp _ y hy
  | delete key =>
    simp only [Op.apply]
    rcases delete_cases context key with ⟨h, _⟩ | ⟨found, rest, hloop, h⟩
    · rw [h]
      exact hp
    · rw [h]
      intro j cell hcell
      rcases mem_getD_set _ _ _ _ _ hcell with hold | ⟨hj, hnew⟩
      · exact hp j cell hold
      · obtain ⟨before, after, hchain, hrest, _, _⟩ := delete_loop_split _ _ _ _ _ hloop
        show context.hash cell.key = j
        rw [hj]
        apply hp
        rw [hchain]
        rw [hrest] at hnew
        rcases List.mem_append.1 hnew with hb | ha
        · exact List.mem_append_left _ hb
        · exact List.mem_append_right _ (List.mem_cons_of_mem _ ha)
  | get key => exact hp
  | find key => exact hp
  | next =>
    have h := next_chains context
    intro j cell hcell
    simp only [Op.apply] at hcell ⊢
    rw [h.1] at hcell
    rw [h.2.2.1]
    exact hp j cell hcell

theorem placed_run (ops : List (Op K V)) (context : hashtable_Context K V)
    (hp : Placed context) : Placed (run context ops) := by
  induction ops generalizing context with
  | nil => exact hp
  | cons op ops ih => exact ih (Op.apply context op) (placed_apply context op hp)

theorem placed_at_start (N : Nat) (hash : K → Nat) (compareKey : K → K → Bool) :
    Placed ( hashtable_initialize V N hash compareKey) := by
  intro j cell hcell
  have hnil : ( hashtable_initialize V N hash compareKey).table.getD j [] = [] :=
    getD_replicate_nil N j
  rw [hnil] at hcell
  cases hcell

theorem find_loop_congr (compareKey : K → K → Bool)
    (hsymm : ∀ a b, compareKey a b = true → compareKey b a = true)
    (htrans : ∀ a b c, compareKey a b = true → compareKey b c = true → compareKey a c = true)
    (k probe : K) (hkp : compareKey k probe = true) (chain : List (hashtable_Cell K V)) :
    find_loop compareKey probe chain = find_loop compareKey k chain := by
  induction chain with
  | nil => rfl
  | cons cell next ih =>
    have hsame : compareKey cell.key probe = compareKey cell.key k := by
      cases hk : compareKey cell.key k with
      | true => exact htrans _ _ _ hk hkp
      | false =>
        cases hp : compareKey cell.key probe with
        | false => rfl
        | true =>
          rw [htrans _ _ _ hp (hsymm _ _ hkp)] at hk
          cases hk
    simp only [find_loop, hsame, ih]

/-- Two keys that compare equal and hash equally get the same answer from
`hashtable_find_private`. -/
theorem find_private_congr (context : hashtable_Context K V)
    (hsymm : ∀ a b, context.compareKey a b = true → context.compareKey b a = true)
    (htrans : ∀ a b c, context.compareKey a b = true → context.compareKey b c = true →
      context.compareKey a c = true)
    (k probe : K) (hkp : context.compareKey k probe = true)
    (hhash : context.hash k = context.hash probe) :
    hashtable_find_private context probe = hashtable_find_private context k := by
  unfold hashtable_find_private
  rw [← hhash]
  exact find_loop_congr _ hsymm htrans k probe hkp _

theorem get_none_iff (context : hashtable_Context K V) (k : K) :
    hashtable_get context k = none ↔ hashtable_find_private context k = none := by
  rw [get_eq_map]
  cases hashtable_find_private context k <;> simp

theorem find_delete_frame (context : hashtable_Context K V) (k probe : K)
    (hsymm : ∀ a b, context.compareKey a b = true → context.compareKey b a = true)
    (htrans : ∀ a b c, context.compareKey a b = true → context.compareKey b c = true →
      context.compareKey a c = true)
    (hne : context.compareKey k probe = false) :
    hashtable_find_private (hashtable_delete context k) probe
      = hashtable_find_private context probe := by
  rcases delete_cases context k with ⟨h, _⟩ | ⟨found, rest, hloop, h⟩
  · rw [h]
  · rw [h]
    simp only [hashtable_find_private]
    apply find_after_set
    intro _
    exact find_delete_other _ hsymm htrans _ _ hne _ _ _ hloop

/-- One call keeps the table in step with the reference map. -/
theorem sim_step (context : hashtable_Context K V) (m : K → Option V) (op : Op K V)
    (hrange : ∀ key, context.hash key < context.tableSize)
    (hequiv : KeyEquivalence context.compareKey)
    (hcompat : ∀ a b, context.compareKey a b = true → context.hash a = context.hash b)
    (halloc : Allocated context) (hd : Distinct context)
    (hagree : ∀ probe, hashtable_get context probe = m probe) (probe : K) :
    hashtable_get (Op.apply context op) probe = ref_apply context.compareKey m op probe := by
  cases op with
  | insert k v =>
    simp only [Op.apply, ref_apply]
    cases hkp : context.compareKey k probe with
    | false =>
      have hframe := (find_other_key context k probe v hequiv.symm hequiv.trans hkp).1
      rw [get_eq_map, hframe, ← get_eq_map, hagree]
      unfold ref_insert
      cases m k with
      | none => simp only [hkp, Bool.false_eq_true, if_false]
      | some old => rfl
    | true =>
      have hlen : context.hash k < context.table.length := by rw [halloc]; exact hrange k
      cases hf : hashtable_find_private context k with
      | none =>
        have hmk : m k = none := by rw [← hagree, get_none_iff]; exact hf
        rw [insert_absent context k v hf]
        unfold ref_insert
        rw [hmk]
        simp only [hkp, if_true]
        rw [get_eq_map]
        simp only [hashtable_find_private, ← hcompat k probe hkp, getD_set_same _ _ _ hlen,
          find_loop, hkp, if_true, Option.map_some']
      | some found =>
        have hmk : m k = some found.data := by rw [← hagree, get_eq_map, hf]; rfl
        rw [insert_present context k v found hf]
        unfold ref_insert
        rw [hmk]
        exact hagree probe
  | update k v =>
    simp only [Op.apply, ref_apply]
    cases hkp : context.compareKey k probe with
    | false =>
      have hframe := (find_other_key context k probe v hequiv.symm hequiv.trans hkp).2.1
      rw [get_eq_map, hframe, ← get_eq_map, hagree]
      unfold ref_update
      cases m k with
      | none => rfl
      | some old => simp only [hkp, Bool.false_eq_true, if_false]
    | true =>
      have hlen : context.hash k < context.table.length := by rw [halloc]; exact hrange k
      cases hf : hashtable_find_private context k with
      | none =>
        have hmk : m k = none := by rw [← hagree, get_none_iff]; exact hf
        have hsame : hashtable_update context k v = context := by
          simp only [hashtable_update, hf]
        rw [hsame]
        unfold ref_update
        rw [hmk]
        exact hagree probe
      | some found =>
        have hmk : m k = some found.data := by rw [← hagree, get_eq_map, hf]; rfl
        have hupd : hashtable_update context k v =
            { context with
              table := context.table.set (context.hash k)
                (update_loop context.compareKey k v
                  (context.table.getD (context.hash k) [])) } := by
          simp only [hashtable_update, hf]
        rw [hupd]
        unfold ref_update
        rw [hmk]
        simp only [hkp, if_true]
        rw [get_eq_map]
        simp only [hashtable_find_private, ← hcompat k probe hkp, getD_set_same _ _ _ hlen]
        rw [find_loop_congr _ hequiv.symm hequiv.trans k probe hkp,
          find_update_loop _ _ _ _ found hf]
        rfl
  | delete k =>
    simp only [Op.apply, ref_apply]
    cases hkp : context.compareKey k probe with
    | false =>
      have hframe := find_delete_frame context k probe hequiv.symm hequiv.trans hkp
      rw [get_eq_map, hframe, ← get_eq_map, hagree]
      simp only [ref_delete, hkp, Bool.false_eq_true, if_false]
    | true =>
      have hfields := apply_fields context (Op.delete k)
      simp only [Op.apply] at hfields
      have hcongr := find_private_congr (hashtable_delete context k)
        (by rw [hfields.2.2.2]; exact hequiv.symm) (by rw [hfields.2.2.2]; exact hequiv.trans)
        k probe (by rw [hfields.2.2.2]; exact hkp)
        (by rw [hfields.2.2.1]; exact hcompat k probe hkp)
      rw [get_eq_map, hcongr, find_deleted_key context k hd]
      simp only [ref_delete, hkp, if_true, Option.map_none']
  | get k => exact hagree probe
  | find k => exact hagree probe
  | next =>
    simp only [Op.apply, ref_apply]
    have h := next_chains context
    rw [get_eq_map, ← hagree, get_eq_map]
    unfold hashtable_find_private
    rw [h.1, h.2.1, h.2.2.1]

/-- A sequence of calls keeps the table in step with the reference map. -/
theorem sim_run (ops : List (Op K V)) (context : hashtable_Context K V) (m : K → Option V)
    (hrange : ∀ key, context.hash key < context.tableSize)
    (hequiv : KeyEquivalence context.compareKey)
    (hcompat : ∀ a b, context.compareKey a b = true → context.hash a = context.hash b)
    (halloc : Allocated context) (hd : Distinct context)
    (hagree : ∀ probe, hashtable_get context probe = m probe) (probe : K) :
    hashtable_get (run context ops) probe
      = ops.foldl (ref_apply context.compareKey) m probe := by
  induction ops generalizing context m with
  | nil => exact hagree probe
  | cons op ops ih =>
    have hfields := apply_fields context op
    have hstep := distinct_run context.compareKey hequiv.symm hequiv.trans [op] context rfl hd
    have hnext := ih (Op.apply context op) (ref_apply context.compareKey m op)
      (by rw [hfields.2.2.1, hfields.2.1]; exact hrange)
      (by rw [hfields.2.2.2]; exact hequiv)
      (by rw [hfields.2.2.2, hfields.2.2.1]; exact hcompat)
      (by unfold Allocated; rw [hfields.1, hfields.2.1]; exact halloc)
      hstep.2
      (fun q => sim_step context m op hrange hequiv hcompat halloc hd hagree q)
    rw [hfields.2.2.2] at hnext
    exact hnext

theorem hash_private_eq (key : hashtable_Key) (h : key.s_addr < 2 ^ 32) :
    hashtable_hash_private key = (key.s_addr % 2 ^ 16) ^^^ (key.s_addr / 2 ^ 16) := by
  have hmask : (0xffff : Nat) = 2 ^ 16 - 1 := by decide
  have hhigh : key.s_addr / 2 ^ 16 < 2 ^ 16 :=
    Nat.div_lt_of_lt_mul (by rw [← Nat.pow_add]; exact h)
  unfold hashtable_hash_private
  rw [hmask, Nat.and_pow_two_sub_one_eq_mod, Nat.and_pow_two_sub_one_eq_mod,
    Nat.shiftRight_eq_div_pow, Nat.mod_eq_of_lt hhigh]

theorem hash_private_lt (key : hashtable_Key) :
    hashtable_hash_private key < 2 ^ 16 := by
  have hmask : (0xffff : Nat) = 2 ^ 16 - 1 := by decide
  unfold hashtable_hash_private
  rw [hmask, Nat.and_pow_two_sub_one_eq_mod, Nat.and_pow_two_sub_one_eq_mod]
  exact Nat.xor_lt_two_pow (Nat.mod_lt _ (by decide)) (Nat.mod_lt _ (by decide))

/-- Two keys of different buckets, both absent, inserted one after the other: both calls
return `hashtable_NOT_EXIST` and both values can be read back. -/
theorem insert_two_keys (context : hashtable_Context K V) (k1 k2 : K) (v1 v2 : V)
    (halloc : Allocated context) (hr1 : context.hash k1 < context.tableSize)
    (hr2 : context.hash k2 < context.tableSize) (hne : context.hash k1 ≠ context.hash k2)
    (hrefl1 : context.compareKey k1 k1 = true) (hrefl2 : context.compareKey k2 k2 = true)
    (ha1 : hashtable_find_private context k1 = none)
    (ha2 : hashtable_find_private context k2 = none) :
    (hashtable_insert context k1 v1).1 = hashtable_NOT_EXIST ∧
      (hashtable_insert (hashtable_insert context k1 v1).2 k2 v2).1 = hashtable_NOT_EXIST ∧
      hashtable_get (hashtable_insert (hashtable_insert context k1 v1).2 k2 v2).2 k1 = some v1 ∧
      hashtable_get (hashtable_insert (hashtable_insert context k1 v1).2 k2 v2).2 k2
        = some v2 := by
  have hl1 : context.hash k1 < context.table.length := by rw [halloc]; exact hr1
  have hl2 : context.hash k2 < context.table.length := by rw [halloc]; exact hr2
  rw [insert_absent context k1 v1 ha1]
  have ha2' : hashtable_find_private
      { context with
        table := context.table.set (context.hash k1)
          ({ key := k1, data := v1 } :: context.table.getD (context.hash k1) []) } k2 = none := by
    simp only [hashtable_find_private, getD_set_other _ _ _ _ hne]
    exact ha2
  rw [insert_absent _ k2 v2 ha2']
  have hl2' : context.hash k2 < (context.table.set (context.hash k1)
      ({ key := k1, data := v1 } :: context.table.getD (context.hash k1) [])).length := by
    rw [List.length_set]
    exact hl2
  refine ⟨rfl, rfl, ?_, ?_⟩
  · rw [get_eq_map]
    simp only [hashtable_find_private, getD_set_other _ _ _ _ (Ne.symm hne),
      getD_set_same _ _ _ hl1, find_loop, hrefl1, if_true, Option.map_some']
  · rw [get_eq_map]
    simp only [hashtable_find_private, getD_set_same _ _ _ hl2', find_loop, hrefl2, if_true,
      Option.map_some']

end Lemmas

section Claims

variable {K V : Type}

/-- C1: in a table with its `tableSize` buckets, for a key `k` with `hash k` in
`[0, tableSize)`, `compareKey k k` true and `hashtable_find` reporting `k` absent,
`hashtable_insert k v` returns `hashtable_NOT_EXIST` and a following `hashtable_get k`
returns exactly `v`. -/
theorem insert_then_get (context : hashtable_Context K V) (k : K) (v : V)
    (halloc : Allocated context) (hrange : context.hash k < context.tableSize)
    (hrefl : context.compareKey k k = true) (habsent : hashtable_find context k = none) :
    (hashtable_insert context k v).1 = hashtable_NOT_EXIST ∧
      hashtable_get (hashtable_insert context k v).2 k = some v := by
  have hlen : context.hash k < context.table.length := by rw [halloc]; exact hrange
  rw [insert_absent context k v habsent]
  refine ⟨rfl, ?_⟩
  rw [get_eq_map]
  simp only [hashtable_find_private, getD_set_same _ _ _ hlen, find_loop, hrefl, if_true,
    Option.map_some']

/-- Witness of C1: capacity 4, `hash k = k mod 4`, key 9 is inserted next to key 1 and 5. -/
theorem insert_then_get_witness :
    (hashtable_insert collide 9 30).1 = hashtable_NOT_EXIST ∧
      hashtable_get (hashtable_insert collide 9 30).2 9 = some 30 :=
  insert_then_get collide 9 30 rfl (by decide) (by decide) (by decide)

/-- C2 as stated fails when `compareKey` is not reflexive at `k1`: capacity 1, every key in
bucket 0, keys compared with `differ`.  `compareKey 0 1` holds, `hashtable_insert 0 10`
returns `hashtable_NOT_EXIST` and `hashtable_insert 1 20` then returns `hashtable_EXIST`,
but `hashtable_get 0` returns `NULL`, not the stored 10. -/
theorem insert_twice_counterexample :
    irreflexive.compareKey 0 1 = true ∧ irreflexive.hash 0 = irreflexive.hash 1 ∧
      irreflexive.hash 0 < irreflexive.tableSize ∧
      (hashtable_insert irreflexive 0 10).1 = hashtable_NOT_EXIST ∧
      (hashtable_insert (hashtable_insert irreflexive 0 10).2 1 20).1 = hashtable_EXIST ∧
      hashtable_get (hashtable_insert (hashtable_insert irreflexive 0 10).2 1 20).2 0 = none := by
  decide

/-- C2, amended: in a table with its `tableSize` buckets, for keys `k1`, `k2` with
`compareKey k1 k2`, `compareKey k1 k1` and `hash k1 = hash k2` in range, if
`hashtable_insert k1 v1` returned `hashtable_NOT_EXIST`, then `hashtable_insert k2 v2`
returns `hashtable_EXIST`, leaves the whole context (every chain, the cursor, the record of
destroy callbacks) as it was, and `hashtable_get k1` still returns `v1`. -/
theorem insert_twice (context : hashtable_Context K V) (k1 k2 : K) (v1 v2 : V)
    (halloc : Allocated context) (hequal : context.compareKey k1 k2 = true)
    (hhash : context.hash k1 = context.hash k2) (hrange : context.hash k1 < context.tableSize)
    (hrefl : context.compareKey k1 k1 = true)
    (hfirst : (hashtable_insert context k1 v1).1 = hashtable_NOT_EXIST) :
    (hashtable_insert (hashtable_insert context k1 v1).2 k2 v2).1 = hashtable_EXIST ∧
      (hashtable_insert (hashtable_insert context k1 v1).2 k2 v2).2
        = (hashtable_insert context k1 v1).2 ∧
      hashtable_get (hashtable_insert (hashtable_insert context k1 v1).2 k2 v2).2 k1
        = some v1 := by
  have hlen : context.hash k1 < context.table.length := by rw [halloc]; exact hrange
  have habsent : hashtable_find_private context k1 = none := by
    cases hf : hashtable_find_private context k1 with
    | none => rfl
    | some found =>
      rw [insert_present context k1 v1 found hf] at hfirst
      have hcodes : hashtable_EXIST ≠ hashtable_NOT_EXIST := by decide
      exact absurd hfirst hcodes
  rw [insert_absent context k1 v1 habsent]
  have hsecond : hashtable_find_private
      { context with
        table := context.table.set (context.hash k1)
          ({ key := k1, data := v1 } :: context.table.getD (context.hash k1) []) } k2
      = some { key := k1, data := v1 } := by
    simp only [hashtable_find_private, ← hhash, getD_set_same _ _ _ hlen, find_loop, hequal,
      if_true]
  rw [insert_present _ k2 v2 _ hsecond]
  refine ⟨rfl, rfl, ?_⟩
  rw [get_eq_map]
  simp only [hashtable_find_private, getD_set_same _ _ _ hlen, find_loop, hrefl, if_true,
    Option.map_some']

/-- Witness of C2: capacity 4, `hash k = k mod 4`; key 9 is inserted, then inserted again. -/
theorem insert_twice_witness :
    (hashtable_insert (hashtable_insert collide 9 30).2 9 40).1 = hashtable_EXIST ∧
      (hashtable_insert (hashtable_insert collide 9 30).2 9 40).2
        = (hashtable_insert collide 9 30).2 ∧
      hashtable_get (hashtable_insert (hashtable_insert collide 9 30).2 9 40).2 9 = some 30 :=
  insert_twice collide 9 9 30 40 rfl (by decide) (by decide) (by decide) (by decide) (by decide)

/-- C4: for a key `k` with `hash k` in range such that no cell of bucket `hash k` has a key
comparing equal to `k`, `hashtable_delete k` returns the context as it was (every chain, the
cursor, and no destroy callback recorded), so deleting `k` twice gives the same table as
deleting it once. -/
theorem delete_absent (context : hashtable_Context K V) (k : K)
    (_hrange : context.hash k < context.tableSize)
    (habsent : ∀ cell ∈ context.table.getD (context.hash k) [],
      context.compareKey cell.key k = false) :
    hashtable_delete context k = context ∧
      hashtable_delete (hashtable_delete context k) k = hashtable_delete context k := by
  have hnone : delete_loop context.compareKey k (context.table.getD (context.hash k) []) = none :=
    (delete_loop_none_iff _ _ _).2 ((find_loop_none_iff _ _ _).2 habsent)
  have hsame : hashtable_delete context k = context := by
    unfold hashtable_delete hashtable_delete_private
    split
    · rfl
    · rename_i cell next hcell
      rw [hcell] at hnone
      simp only [hnone]
  exact ⟨hsame, by rw [hsame, hsame]⟩

/-- Witness of C4: key 9 hashes to bucket 1 of `collide`, which holds keys 5 and 1 only. -/
theorem delete_absent_witness :
    hashtable_delete collide 9 = collide ∧
      hashtable_delete (hashtable_delete collide 9) 9 = hashtable_delete collide 9 :=
  delete_absent collide 9 (by decide) (by decide)

/-- C5: in a table with its `tableSize` buckets where `k` is present (`hashtable_find k` is
not `NULL`, `hash k` in range), after `hashtable_update k v` the call `hashtable_get k`
returns `v`, and every chain holds the same keys in the same order as before. -/
theorem update_then_get (context : hashtable_Context K V) (k : K) (v : V)
    (halloc : Allocated context) (hrange : context.hash k < context.tableSize)
    (hpresent : hashtable_find context k ≠ none) :
    hashtable_get (hashtable_update context k v) k = some v ∧
      (hashtable_update context k v).table.map (fun chain => chain.map (fun cell => cell.key))
        = context.table.map (fun chain => chain.map (fun cell => cell.key)) := by
  have hlen : context.hash k < context.table.length := by rw [halloc]; exact hrange
  cases hf : hashtable_find_private context k with
  | none => exact absurd hf hpresent
  | some found =>
    have hupd : hashtable_update context k v =
        { context with
          table := context.table.set (context.hash k)
            (update_loop context.compareKey k v (context.table.getD (context.hash k) [])) } := by
      simp only [hashtable_update, hf]
    rw [hupd]
    constructor
    · rw [get_eq_map]
      simp only [hashtable_find_private, getD_set_same _ _ _ hlen]
      rw [find_update_loop _ _ _ _ found hf]
      rfl
    · exact map_keys_set_update _ _ _ _ _

/-- Witness of C5: key 1 of `collide` (stored with 10, behind key 5) is updated to 11. -/
theorem update_then_get_witness :
    hashtable_get (hashtable_update collide 1 11) 1 = some 11 ∧
      (hashtable_update collide 1 11).table.map (fun chain => chain.map (fun cell => cell.key))
        = collide.table.map (fun chain => chain.map (fun cell => cell.key)) :=
  update_then_get collide 1 11 rfl (by decide) (by decide)

/-- C6: for a key `k` that is not present (`hashtable_find k` is `NULL`),
`hashtable_update k v` returns the context as it was (all chains with their values, the
cursor; `v` is stored nowhere) and a following `hashtable_get k` still returns `NULL`. -/
theorem update_absent (context : hashtable_Context K V) (k : K) (v : V)
    (habsent : hashtable_find context k = none) :
    hashtable_update context k v = context ∧
      hashtable_get (hashtable_update context k v) k = none := by
  have hf : hashtable_find_private context k = none := habsent
  have hsame : hashtable_update context k v = context := by
    simp only [hashtable_update, hf]
  refine ⟨hsame, ?_⟩
  rw [hsame, get_eq_map, hf]
  rfl

/-- Witness of C6: key 9 is absent from `collide`. -/
theorem update_absent_witness :
    hashtable_update collide 9 30 = collide ∧
      hashtable_get (hashtable_update collide 9 30) 9 = none :=
  update_absent collide 9 30 (by decide)

/-- C3: for a table reached from `hashtable_initialize` by insert, update and delete calls
(hash always in `[0, tableSize)`, `compareKey` an equivalence relation, equal keys hashing
equally) and every key `k`: after `hashtable_delete k`, both `hashtable_get k` and
`hashtable_find k` return `NULL`. -/
theorem delete_then_get (N : Nat) (hash : K → Nat) (compareKey : K → K → Bool)
    (ops : List (Op K V)) (k : K)
    (_hmut : ∀ op ∈ ops, op.isMutation = true) (_hrange : ∀ key, hash key < N)
    (hequiv : KeyEquivalence compareKey)
    (_hcompat : ∀ a b, compareKey a b = true → hash a = hash b) :
    hashtable_get (hashtable_delete (run ( hashtable_initialize V N hash compareKey) ops) k) k
        = none ∧
      hashtable_find (hashtable_delete (run ( hashtable_initialize V N hash compareKey) ops) k) k
        = none := by
  have hinv := distinct_run compareKey hequiv.symm hequiv.trans ops
    ( hashtable_initialize V N hash compareKey) rfl (distinct_at_start N hash compareKey)
  have hfind := find_deleted_key _ k hinv.2
  refine ⟨?_, hfind⟩
  rw [get_eq_map, hfind]
  rfl

/-- Witness of C3: capacity 4, `hash k = k mod 4`; keys 1 and 5 share bucket 1, key 1 is
deleted. -/
theorem delete_then_get_witness :
    hashtable_get (hashtable_delete collide 1) 1 = none ∧
      hashtable_find (hashtable_delete collide 1) 1 = none :=
  delete_then_get 4 mod4 sameNat [Op.insert 1 10, Op.insert 5 20] 1 (by decide) mod4_range
    sameNat_equivalence sameNat_mod4

/-- C7 fails on the code: capacity 4, `hash k = k mod 4`, after `Insert(4, 10)` the entry
sits in bucket 0 and the cursor is in its initial state, yet the first `hashtable_next`
returns `NULL`, so the sweep ends without having returned the entry. -/
theorem sweep_misses_bucket_zero :
    bucketZero.table.getD 0 [] = [{ key := 4, data := 10 }] ∧
      bucketZero.i = 0 ∧ bucketZero.currentCell = [] ∧
      (hashtable_next bucketZero).1 = none ∧ (sweep 4 bucketZero).1 = [] := by
  decide

/-- C8: right after `hashtable_initialize` with `N >= 1` the table has `N` buckets, all
empty, the cursor is `(i = 0, currentCell = NULL)`, `tableSize = N`, for every key with
`hash k` in `[0, N)` both `hashtable_find k` and `hashtable_get k` return `NULL`, and
`hashtable_next` returns `NULL`. -/
theorem initialize_empty (N : Nat) (hash : K → Nat) (compareKey : K → K → Bool)
    (_hN : 1 ≤ N) :
    ( hashtable_initialize V N hash compareKey).table.length = N ∧
      (∀ j, j < N → ( hashtable_initialize V N hash compareKey).table.getD j [] = []) ∧
      ( hashtable_initialize V N hash compareKey).i = 0 ∧
      ( hashtable_initialize V N hash compareKey).currentCell = [] ∧
      ( hashtable_initialize V N hash compareKey).tableSize = N ∧
      (∀ k, hash k < N →
        hashtable_find ( hashtable_initialize V N hash compareKey) k = none ∧
        hashtable_get ( hashtable_initialize V N hash compareKey) k = none) ∧
      (hashtable_next ( hashtable_initialize V N hash compareKey)).1 = none := by
  have hempty : ∀ j, ( hashtable_initialize V N hash compareKey).table.getD j [] = [] :=
    fun j => getD_replicate_nil N j
  have hfind : ∀ k, hashtable_find_private ( hashtable_initialize V N hash compareKey) k = none := by
    intro k
    unfold hashtable_find_private
    rw [hempty]
    rfl
  refine ⟨List.length_replicate _ _, fun j _ => hempty j, rfl, rfl, rfl, ?_, ?_⟩
  · intro k _
    refine ⟨hfind k, ?_⟩
    rw [get_eq_map, hfind k]
    rfl
  · have hscan := next_scan_all_empty ( hashtable_initialize V N hash compareKey) hempty
      (N - (0 + 1)) (0 + 1)
    show (next_scan ( hashtable_initialize V N hash compareKey) (N - (0 + 1)) (0 + 1)).1 = none
    rw [hscan]

/-- Witness of C8: a table of capacity 4 with `hash k = k mod 4`. -/
theorem initialize_empty_witness :
    ( hashtable_initialize Nat 4 mod4 sameNat).table.length = 4 ∧
      (∀ j, j < 4 → ( hashtable_initialize Nat 4 mod4 sameNat).table.getD j [] = []) ∧
      ( hashtable_initialize Nat 4 mod4 sameNat).i = 0 ∧
      ( hashtable_initialize Nat 4 mod4 sameNat).currentCell = [] ∧
      ( hashtable_initialize Nat 4 mod4 sameNat).tableSize = 4 ∧
      (∀ k, mod4 k < 4 →
        hashtable_find ( hashtable_initialize Nat 4 mod4 sameNat) k = none ∧
        hashtable_get ( hashtable_initialize Nat 4 mod4 sameNat) k = none) ∧
      (hashtable_next ( hashtable_initialize Nat 4 mod4 sameNat)).1 = none :=
  initialize_empty 4 mod4 sameNat (by decide)

/-- C9: in every table reached from `hashtable_initialize` by insert, update, delete, get,
find and next calls, with `compareKey` an equivalence relation, every chain holds at most
one cell whose key compares equal to a given key `k`. -/
theorem no_duplicate_keys (N : Nat) (hash : K → Nat) (compareKey : K → K → Bool)
    (ops : List (Op K V)) (hequiv : KeyEquivalence compareKey)
    (chain : List (hashtable_Cell K V))
    (hchain : chain ∈ (run ( hashtable_initialize V N hash compareKey) ops).table) (k : K) :
    matches_in compareKey k chain ≤ 1 := by
  have hinv := distinct_run compareKey hequiv.symm hequiv.trans ops
    ( hashtable_initialize V N hash compareKey) rfl (distinct_at_start N hash compareKey)
  have hone := hinv.2 chain hchain k
  rw [hinv.1] at hone
  exact hone

/-- Witness of C9: bucket 1 of `collide` holds keys 5 and 1; one of them matches key 5. -/
theorem no_duplicate_keys_witness :
    matches_in sameNat 5 [{ key := 5, data := 20 }, { key := 1, data := 10 }] ≤ 1 :=
  no_duplicate_keys 4 mod4 sameNat [Op.insert 1 10, Op.insert 5 20] sameNat_equivalence
    [{ key := 5, data := 20 }, { key := 1, data := 10 }] (by decide) 5

/-- C10: for a table reached from `hashtable_initialize` (hash in range, `compareKey` an
equivalence relation, equal keys hashing equally) and keys `k`, `k'` with `compareKey k k'`
false, `hashtable_get k'` returns the same before and after each of `hashtable_insert k v`,
`hashtable_update k v` and `hashtable_delete k`, also when both keys share a bucket. -/
theorem get_other_key (N : Nat) (hash : K → Nat) (compareKey : K → K → Bool)
    (ops : List (Op K V)) (k k' : K) (v : V)
    (_hrange : ∀ key, hash key < N) (hequiv : KeyEquivalence compareKey)
    (_hcompat : ∀ a b, compareKey a b = true → hash a = hash b)
    (hne : compareKey k k' = false) :
    hashtable_get (hashtable_insert (run ( hashtable_initialize V N hash compareKey) ops) k v).2 k'
        = hashtable_get (run ( hashtable_initialize V N hash compareKey) ops) k' ∧
      hashtable_get (hashtable_update (run ( hashtable_initialize V N hash compareKey) ops) k v) k'
        = hashtable_get (run ( hashtable_initialize V N hash compareKey) ops) k' ∧
      hashtable_get (hashtable_delete (run ( hashtable_initialize V N hash compareKey) ops) k) k'
        = hashtable_get (run ( hashtable_initialize V N hash compareKey) ops) k' := by
  have hinv := distinct_run compareKey hequiv.symm hequiv.trans ops
    ( hashtable_initialize V N hash compareKey) rfl (distinct_at_start N hash compareKey)
  have hframe := find_other_key (run ( hashtable_initialize V N hash compareKey) ops) k k' v
    (by rw [hinv.1]; exact hequiv.symm) (by rw [hinv.1]; exact hequiv.trans)
    (by rw [hinv.1]; exact hne)
  simp only [get_eq_map, hframe.1, hframe.2.1, hframe.2.2, and_self]

/-- Witness of C10: capacity 4, `hash k = k mod 4`, keys 1 and 5 collide in bucket 1; after
`delete(1)` (and after `insert(1, 30)` or `update(1, 30)`) `get(5)` is still 20. -/
theorem get_other_key_witness :
    hashtable_get (hashtable_insert collide 1 30).2 5 = some 20 ∧
      hashtable_get (hashtable_update collide 1 30) 5 = some 20 ∧
      hashtable_get (hashtable_delete collide 1) 5 = some 20 :=
  get_other_key 4 mod4 sameNat [Op.insert 1 10, Op.insert 5 20] 1 5 30 mod4_range
    sameNat_equivalence sameNat_mod4 (by decide)

/-- C11: a sweep (repeated `hashtable_next` from the initial or wrapped cursor until the
first `NULL`, the fuel exceeding the number of stored cells) returns a sublist of the bucket
chains laid end to end in bucket order: bucket indices never decrease, cells of one bucket
come in chain order, and no cell is returned twice.  More fuel returns nothing more, the
sweep has ended on `NULL`. -/
theorem sweep_order (context : hashtable_Context K V) (fuel : Nat)
    (hi : context.i = 0) (hcur : context.currentCell = []) (halloc : Allocated context)
    (hfuel : context.table.flatten.length < fuel) :
    List.Sublist (sweep fuel context).1 context.table.flatten ∧
      ∀ more, (sweep (fuel + more) context).1 = (sweep fuel context).1 := by
  have hsweep := sweep_from_start fuel context hi hcur halloc hfuel
  refine ⟨?_, ?_⟩
  · rw [hsweep]
    exact drop_one_flatten_sublist context.table
  · intro more
    rw [hsweep, sweep_from_start (fuel + more) context hi hcur halloc
      (Nat.lt_of_lt_of_le hfuel (Nat.le_add_right fuel more))]

/-- Witness of C11: the table `filled` (keys 4, 1, 5, 2, 3 in four buckets), fuel 6. -/
theorem sweep_order_witness :
    List.Sublist (sweep 6 filled).1 filled.table.flatten ∧
      ∀ more, (sweep (6 + more) filled).1 = (sweep 6 filled).1 :=
  sweep_order filled 6 rfl rfl rfl (by decide)

/-- C12: whenever `hashtable_next` returns `NULL` it leaves `i = 0`, `currentCell = NULL`
and the chains as they were; hence a sweep from the initial or wrapped cursor (fuel
exceeding the number of stored cells) hands back the cursor it started from, and the sweep
that follows returns the same sequence of cells. -/
theorem next_null_wraps (context : hashtable_Context K V) (fuel : Nat)
    (hi : context.i = 0) (hcur : context.currentCell = []) (halloc : Allocated context)
    (hfuel : context.table.flatten.length < fuel) :
    (∀ state : hashtable_Context K V, (hashtable_next state).1 = none →
        (hashtable_next state).2.i = 0 ∧ (hashtable_next state).2.currentCell = [] ∧
        (hashtable_next state).2.table = state.table) ∧
      (sweep fuel context).2.i = 0 ∧ (sweep fuel context).2.currentCell = [] ∧
      (sweep fuel context).2.table = context.table ∧
      (sweep fuel (sweep fuel context).2).1 = (sweep fuel context).1 := by
  have hsweep := sweep_from_start fuel context hi hcur halloc hfuel
  refine ⟨?_, ?_, ?_, ?_, ?_⟩
  · intro state hnone
    unfold hashtable_next at hnone ⊢
    cases hstate : state.currentCell with
    | nil =>
      rw [hstate] at hnone
      simp only at hnone ⊢
      rw [next_scan_none state _ _ hnone]
      exact ⟨rfl, rfl, rfl⟩
    | cons cell next =>
      rw [hstate] at hnone
      cases hnone
  · rw [hsweep]
    exact hi
  · rw [hsweep]
    exact hcur
  · rw [hsweep]
  · rw [hsweep, hsweep]

/-- Witness of C12: two sweeps over the table `filled`, fuel 6 each. -/
theorem next_null_wraps_witness :
    (∀ state : hashtable_Context Nat Nat, (hashtable_next state).1 = none →
        (hashtable_next state).2.i = 0 ∧ (hashtable_next state).2.currentCell = [] ∧
        (hashtable_next state).2.table = state.table) ∧
      (sweep 6 filled).2.i = 0 ∧ (sweep 6 filled).2.currentCell = [] ∧
      (sweep 6 filled).2.table = filled.table ∧
      (sweep 6 (sweep 6 filled).2).1 = (sweep 6 filled).1 :=
  next_null_wraps filled 6 rfl rfl rfl (by decide)

/-- C13 fails on the code: capacity 4, `hash k = k mod 4`, after `Insert(2, 10)` the call
`hashtable_update(2, 11)` makes `hashtable_get(2)` return 11 but invokes no destroy
callback at all, so the old value 10 is never handed to `destroyData`; `hashtable_delete(2)`
on the same table does invoke `destroyData` on the stored value. -/
theorem update_never_destroys :
    hashtable_get single 2 = some 10 ∧
      hashtable_get (hashtable_update single 2 11) 2 = some 11 ∧
      (hashtable_update single 2 11).calls = [] ∧
      (hashtable_delete single 2).calls = [Callback.destroyData 10, Callback.destroyKey 2] := by
  decide

/-- C14: for a 32-bit address `a`, `hashtable_hash_private` returns
`(a mod 2^16) XOR (a div 2^16)`, a value below `hashtable_TABLE_MAXSIZE = 65536`, which is
the `tableSize` of the table that `hashtable_TEST` initializes; and two keys that
`hashtable_compareKey_private` reports equal have the same hash. -/
theorem hash_private_range (key : hashtable_Key) (h : key.s_addr < 2 ^ 32) :
    hashtable_hash_private key = (key.s_addr % 2 ^ 16) ^^^ (key.s_addr / 2 ^ 16) ∧
      hashtable_hash_private key < hashtable_TABLE_MAXSIZE ∧
      hashtable_hash_private key <
        ( hashtable_initialize V hashtable_TABLE_MAXSIZE hashtable_hash_private
          hashtable_compareKey_private).tableSize ∧
      ∀ other : hashtable_Key, hashtable_compareKey_private key other = true →
        hashtable_hash_private key = hashtable_hash_private other := by
  refine ⟨hash_private_eq key h, hash_private_lt key, hash_private_lt key, ?_⟩
  intro other hsame
  simp only [hashtable_compareKey_private, decide_eq_true_eq] at hsame
  unfold hashtable_hash_private
  rw [hsame]

/-- Witness of C14: the address 8.43.8.43 (`0x2b082b08`), whose two halves cancel. -/
theorem hash_private_range_witness :
    hashtable_hash_private { s_addr := 0x2b082b08 } = (0x2b082b08 % 2 ^ 16) ^^^ (0x2b082b08 / 2 ^ 16) ∧
      hashtable_hash_private { s_addr := 0x2b082b08 } < hashtable_TABLE_MAXSIZE ∧
      hashtable_hash_private { s_addr := 0x2b082b08 } <
        ( hashtable_initialize Nat hashtable_TABLE_MAXSIZE hashtable_hash_private
          hashtable_compareKey_private).tableSize ∧
      ∀ other : hashtable_Key,
        hashtable_compareKey_private { s_addr := 0x2b082b08 } other = true →
        hashtable_hash_private { s_addr := 0x2b082b08 } = hashtable_hash_private other :=
  hash_private_range { s_addr := 0x2b082b08 } (by decide)

/-- C16: in a table with its `tableSize` buckets, for a key `k` not present with
`h = hash k` in range, after `hashtable_insert k v` the chain of bucket `h` is the new cell
`(k, v)` followed by the previous chain of bucket `h`, and every other bucket and the cursor
are unchanged. -/
theorem insert_prepends (context : hashtable_Context K V) (k : K) (v : V)
    (halloc : Allocated context) (hrange : context.hash k < context.tableSize)
    (habsent : hashtable_find context k = none) :
    (hashtable_insert context k v).2.table.getD (context.hash k) []
        = { key := k, data := v } :: context.table.getD (context.hash k) [] ∧
      (∀ j, j ≠ context.hash k →
        (hashtable_insert context k v).2.table.getD j [] = context.table.getD j []) ∧
      (hashtable_insert context k v).2.i = context.i ∧
      (hashtable_insert context k v).2.currentCell = context.currentCell := by
  have hlen : context.hash k < context.table.length := by rw [halloc]; exact hrange
  rw [insert_absent context k v habsent]
  refine ⟨getD_set_same _ _ _ hlen, ?_, rfl, rfl⟩
  intro j hj
  exact getD_set_other _ _ _ _ (Ne.symm hj)

/-- Witness of C16: key 9 goes in front of keys 5 and 1 in bucket 1 of `collide`. -/
theorem insert_prepends_witness :
    (hashtable_insert collide 9 30).2.table.getD (collide.hash 9) []
        = { key := 9, data := 30 } :: collide.table.getD (collide.hash 9) [] ∧
      (∀ j, j ≠ collide.hash 9 →
        (hashtable_insert collide 9 30).2.table.getD j [] = collide.table.getD j []) ∧
      (hashtable_insert collide 9 30).2.i = collide.i ∧
      (hashtable_insert collide 9 30).2.currentCell = collide.currentCell :=
  insert_prepends collide 9 30 rfl (by decide) (by decide)

/-- C17: in a table with its `tableSize` buckets, for a key `k` with `hash k` in range whose
bucket holds a matching cell, `hashtable_delete k` removes the first matching cell of that
chain and nothing else (the cells before and after it keep their order), leaves every other
bucket unchanged, and invokes `destroyData` on that cell's value and then `destroyKey` on
that cell's key, once each, and no other callback. -/
theorem delete_unlinks_first (context : hashtable_Context K V) (k : K)
    (halloc : Allocated context) (hrange : context.hash k < context.tableSize)
    (hpresent : ∃ cell ∈ context.table.getD (context.hash k) [],
      context.compareKey cell.key k = true) :
    ∃ before found after,
      context.table.getD (context.hash k) [] = before ++ found :: after ∧
      (∀ cell ∈ before, context.compareKey cell.key k = false) ∧
      context.compareKey found.key k = true ∧
      (hashtable_delete context k).table.getD (context.hash k) [] = before ++ after ∧
      (∀ j, j ≠ context.hash k →
        (hashtable_delete context k).table.getD j [] = context.table.getD j []) ∧
      (hashtable_delete context k).calls
        = context.calls ++ [Callback.destroyData found.data, Callback.destroyKey found.key] := by
  have hlen : context.hash k < context.table.length := by rw [halloc]; exact hrange
  rcases delete_cases context k with ⟨_, hnone⟩ | ⟨found, rest, hloop, h⟩
  · obtain ⟨cell, hcell, hmatch⟩ := hpresent
    rw [(find_loop_none_iff _ _ _).1 hnone cell hcell] at hmatch
    cases hmatch
  · obtain ⟨before, after, hchain, hrest, hbefore, hmatch⟩ := delete_loop_split _ _ _ _ _ hloop
    refine ⟨before, found, after, hchain, hbefore, hmatch, ?_, ?_, ?_⟩
    · rw [h, ← hrest]
      exact getD_set_same _ _ _ hlen
    · intro j hj
      rw [h]
      exact getD_set_other _ _ _ _ (Ne.symm hj)
    · rw [h]

/-- Witness of C17: key 1 is the second cell of bucket 1 of `collide`. -/
theorem delete_unlinks_first_witness :
    ∃ before found after,
      collide.table.getD (collide.hash 1) [] = before ++ found :: after ∧
      (∀ cell ∈ before, collide.compareKey cell.key 1 = false) ∧
      collide.compareKey found.key 1 = true ∧
      (hashtable_delete collide 1).table.getD (collide.hash 1) [] = before ++ after ∧
      (∀ j, j ≠ collide.hash 1 →
        (hashtable_delete collide 1).table.getD j [] = collide.table.getD j []) ∧
      (hashtable_delete collide 1).calls
        = collide.calls ++ [Callback.destroyData found.data, Callback.destroyKey found.key] :=
  delete_unlinks_first collide 1 rfl (by decide) ⟨{ key := 1, data := 10 }, by decide, by decide⟩

/-- C18: in a table with its `tableSize` buckets, after any number of `hashtable_next` calls
from the initial or wrapped cursor, a cell returned by `hashtable_next` lies in the chain of
a bucket `i >= 1` (right before the new cursor position), never in bucket 0; and a sweep
(fuel exceeding the number of stored cells) returns exactly the chains of the buckets
`1 .. tableSize - 1`, one after the other. -/
theorem next_skips_bucket_zero (context : hashtable_Context K V) (n fuel : Nat)
    (hi : context.i = 0) (hcur : context.currentCell = []) (halloc : Allocated context)
    (hfuel : context.table.flatten.length < fuel) :
    (∀ cell, (hashtable_next (run context (List.replicate n Op.next))).1 = some cell →
        1 ≤ (hashtable_next (run context (List.replicate n Op.next))).2.i ∧
        List.IsSuffix
          (cell :: (hashtable_next (run context (List.replicate n Op.next))).2.currentCell)
          (context.table.getD
            (hashtable_next (run context (List.replicate n Op.next))).2.i [])) ∧
      (sweep fuel context).1 = (context.table.drop 1).flatten := by
  have hreach := cursor_run_next n context (Or.inl hcur)
  have hstep := cursor_next (run context (List.replicate n Op.next)) hreach.1
  refine ⟨?_, ?_⟩
  · intro cell hcell
    have := hstep.2.2 cell hcell
    rw [hreach.2] at this
    exact this
  · rw [sweep_from_start fuel context hi hcur halloc hfuel]

/-- Witness of C18: the table `filled` after two calls of `hashtable_next`, and a full sweep
with fuel 6, which leaves out key 4 of bucket 0. -/
theorem next_skips_bucket_zero_witness :
    (∀ cell, (hashtable_next (run filled (List.replicate 2 Op.next))).1 = some cell →
        1 ≤ (hashtable_next (run filled (List.replicate 2 Op.next))).2.i ∧
        List.IsSuffix
          (cell :: (hashtable_next (run filled (List.replicate 2 Op.next))).2.currentCell)
          (filled.table.getD
            (hashtable_next (run filled (List.replicate 2 Op.next))).2.i [])) ∧
      (sweep 6 filled).1 = (filled.table.drop 1).flatten :=
  next_skips_bucket_zero filled 2 6 rfl rfl rfl (by decide)

/-- C19: for every sequence of insert, update and delete calls on a fresh table (hash in
range, `compareKey` an equivalence relation, equal keys hashing equally) and every key `k`,
`hashtable_get k` equals the lookup of `k` in the reference map driven by the same calls,
and `hashtable_insert k v` returns `hashtable_EXIST` exactly when the reference map
already contains `k`. -/
theorem refines_reference_map (N : Nat) (hash : K → Nat) (compareKey : K → K → Bool)
    (ops : List (Op K V)) (k : K) (v : V)
    (_hmut : ∀ op ∈ ops, op.isMutation = true) (hrange : ∀ key, hash key < N)
    (hequiv : KeyEquivalence compareKey)
    (hcompat : ∀ a b, compareKey a b = true → hash a = hash b) :
    hashtable_get (run ( hashtable_initialize V N hash compareKey) ops) k
        = ref_run compareKey ops k ∧
      ((hashtable_insert (run ( hashtable_initialize V N hash compareKey) ops) k v).1
          = hashtable_EXIST ↔ ref_run compareKey ops k ≠ none) := by
  have hget : hashtable_get (run ( hashtable_initialize V N hash compareKey) ops) k
      = ref_run compareKey ops k := by
    apply sim_run ops ( hashtable_initialize V N hash compareKey) (fun _ => none) hrange hequiv
      hcompat (List.length_replicate _ _) (distinct_at_start N hash compareKey)
    intro probe
    rw [get_eq_map]
    unfold hashtable_find_private
    rw [show ( hashtable_initialize V N hash compareKey).table.getD
      (( hashtable_initialize V N hash compareKey).hash probe) [] = []
      from getD_replicate_nil N _]
    rfl
  refine ⟨hget, ?_⟩
  rw [← hget]
  cases hf : hashtable_find_private (run ( hashtable_initialize V N hash compareKey) ops) k with
  | none =>
    rw [insert_absent _ k v hf, (get_none_iff _ k).2 hf]
    constructor
    · intro hcode
      have hcodes : hashtable_NOT_EXIST ≠ hashtable_EXIST := by decide
      exact absurd hcode hcodes
    · intro hne
      exact absurd rfl hne
  | some found =>
    rw [insert_present _ k v found hf, get_eq_map, hf]
    constructor
    · intro _ hnone
      cases hnone
    · intro _
      rfl

/-- Witness of C19: capacity 4, `hash k = k mod 4`; keys 1 and 5 are inserted, key 1 is
updated, key 5 is deleted, then key 1 is looked up and inserted again. -/
theorem refines_reference_map_witness :
    hashtable_get (run ( hashtable_initialize Nat 4 mod4 sameNat)
        [Op.insert 1 10, Op.insert 5 50, Op.update 1 11, Op.delete 5]) 1
        = ref_run sameNat [Op.insert 1 10, Op.insert 5 50, Op.update 1 11, Op.delete 5] 1 ∧
      ((hashtable_insert (run ( hashtable_initialize Nat 4 mod4 sameNat)
          [Op.insert 1 10, Op.insert 5 50, Op.update 1 11, Op.delete 5]) 1 12).1
          = hashtable_EXIST ↔
        ref_run sameNat [Op.insert 1 10, Op.insert 5 50, Op.update 1 11, Op.delete 5] 1
          ≠ none) :=
  refines_reference_map 4 mod4 sameNat
    [Op.insert 1 10, Op.insert 5 50, Op.update 1 11, Op.delete 5] 1 12 (by decide) mod4_range
    sameNat_equivalence sameNat_mod4

/-- C20 as stated fails, on either reading of "a stored entry whose key equals k".  Both
tables are reached from `hashtable_initialize`, their hash has values in `[0, tableSize)`
and every cell sits in the bucket of its hash.  In `storedZero` (capacity 1, keys compared
with `differ`) the key 0 is stored in bucket `hash 0`, yet `hashtable_find_private 0`
returns `NULL`.  In `looseKeys` (capacity 4, `hash k = k mod 4`, keys compared with
`allEqual`) the key 1 is stored and `compareKey 1 2` holds, yet `hashtable_find_private 2`
inspects bucket 2 and returns `NULL`. -/
theorem find_misses_counterexample :
    (storedZero.hash 0 < storedZero.tableSize ∧
        storedZero.table.getD (storedZero.hash 0) [] = [{ key := 0, data := 10 }] ∧
        hashtable_find_private storedZero 0 = none) ∧
      (looseKeys.hash 1 < looseKeys.tableSize ∧ looseKeys.hash 2 < looseKeys.tableSize ∧
        looseKeys.table.getD (looseKeys.hash 1) [] = [{ key := 1, data := 10 }] ∧
        looseKeys.compareKey 1 2 = true ∧
        hashtable_find_private looseKeys 2 = none) := by
  decide

/-- C20, amended: in every table reached from `hashtable_initialize` by insert, update,
delete, get, find and next calls (hash a function with values in `[0, tableSize)`), every
cell of the chain of bucket `j` has a key that hashes to `j`; so `hashtable_find_private k`,
which inspects only bucket `hash k`, does not return `NULL` when a stored cell has a key
that hashes to the same bucket as `k` and for which `compareKey cell.key k` holds. -/
theorem chains_respect_hash (N : Nat) (hash : K → Nat) (compareKey : K → K → Bool)
    (ops : List (Op K V)) (_hrange : ∀ key, hash key < N) :
    (∀ j, ∀ cell ∈ (run ( hashtable_initialize V N hash compareKey) ops).table.getD j [],
        hash cell.key = j) ∧
      (∀ j, ∀ cell ∈ (run ( hashtable_initialize V N hash compareKey) ops).table.getD j [],
        ∀ k, hash cell.key = hash k → compareKey cell.key k = true →
          hashtable_find_private (run ( hashtable_initialize V N hash compareKey) ops) k
            ≠ none) := by
  have hfields := run_fields ops ( hashtable_initialize V N hash compareKey)
  have hplaced := placed_run ops _ (placed_at_start (V := V) N hash compareKey)
  have hhash : (run ( hashtable_initialize V N hash compareKey) ops).hash = hash := hfields.2.2.1
  have hcmp : (run ( hashtable_initialize V N hash compareKey) ops).compareKey = compareKey :=
    hfields.2.2.2
  have hinv : ∀ j, ∀ cell ∈ (run ( hashtable_initialize V N hash compareKey) ops).table.getD j [],
      hash cell.key = j := by
    intro j cell hcell
    rw [← hhash]
    exact hplaced j cell hcell
  refine ⟨hinv, ?_⟩
  intro j cell hcell k hk hmatch hnone
  unfold hashtable_find_private at hnone
  rw [hhash, hcmp, find_loop_none_iff] at hnone
  have hcell' := hcell
  rw [← hinv j cell hcell, hk] at hcell'
  rw [hnone cell hcell'] at hmatch
  cases hmatch

/-- Witness of C20: the table `collide`, capacity 4, `hash k = k mod 4`, keys compared
with `sameNat`. -/
theorem chains_respect_hash_witness :
    (∀ j, ∀ cell ∈ collide.table.getD j [], mod4 cell.key = j) ∧
      (∀ j, ∀ cell ∈ collide.table.getD j [],
        ∀ k, mod4 cell.key = mod4 k → sameNat cell.key k = true →
          hashtable_find_private collide k ≠ none) :=
  chains_respect_hash 4 mod4 sameNat [Op.insert 1 10, Op.insert 5 20] mod4_range

end Claims

end Hashtable
